import Mathlib

/-!
Verification of the gh-cli setup action core logic.

The TypeScript sources are shallowly embedded below.  JS strings are
modelled as `List Char`; the npm `semver` library functions `clean` and
`compare` (the only semver operations the sources use) are modelled
faithfully from the library's strict-mode behaviour: trimming, the
optional `=`/`v` prefixes, the FULL regular expression for
major.minor.patch with optional pre-release and build parts, and the
precedence rules for comparison.  Not modelled: the library's 256
character length cap and the 2^53 numeric-component cap (both only
shrink the set of accepted inputs), and floating point imprecision when
comparing numeric pre-release identifiers at or above 2^53 (numeric
identifiers are compared as exact naturals here).
-/

namespace GhSetup

/-- JS strings as lists of characters. -/
abbrev Chars := List Char

/-- Shorthand to write character lists as string literals. -/
def chars (s : String) : Chars := s.data

/-- ASCII digit test, `[0-9]` in the semver grammar. -/
def isDigitC (c : Char) : Bool := 48 ≤ c.toNat && c.toNat ≤ 57

/-- ASCII letter test, `[a-zA-Z]` in the semver grammar. -/
def isAlphaC (c : Char) : Bool :=
  (65 ≤ c.toNat && c.toNat ≤ 90) || (97 ≤ c.toNat && c.toNat ≤ 122)

/-- Characters allowed in semver identifiers: `[0-9A-Za-z-]`. -/
def isIdChar (c : Char) : Bool := isDigitC c || isAlphaC c || c.toNat = 45

/-- Whitespace stripped by the JS `trim` used in the semver library
(ASCII whitespace; exotic Unicode space characters are not modelled). -/
def isJsWs (c : Char) : Bool :=
  c.toNat = 32 || c.toNat = 9 || c.toNat = 10 ||
  c.toNat = 13 || c.toNat = 11 || c.toNat = 12

/-- JS `String.prototype.trim`. -/
def trimChars (cs : Chars) : Chars :=
  ((cs.dropWhile isJsWs).reverse.dropWhile isJsWs).reverse

/-- The `replace(/^[=v]+/, "")` step of `semver.clean`. -/
def stripEqV (cs : Chars) : Chars :=
  cs.dropWhile (fun c => c = '=' || c = 'v')

/-- Numeric value of an ASCII digit character. -/
def digitVal (c : Char) : Nat := c.toNat - 48

/-- The ASCII digit character for a value below ten. -/
def digitChar (n : Nat) : Char :=
  match n with
  | 0 => '0' | 1 => '1' | 2 => '2' | 3 => '3' | 4 => '4'
  | 5 => '5' | 6 => '6' | 7 => '7' | 8 => '8' | 9 => '9'
  | _ => '*'

/-- Value of a digit string read left to right (as JS number parsing
does for the digit groups captured by the semver regular expression). -/
def natOfDigits (cs : Chars) : Nat :=
  cs.foldl (fun a c => a * 10 + digitVal c) 0

/-- Decimal rendering worker, structurally recursive on a fuel bound so
that it evaluates by reduction alone. -/
def natDigitsAux : Nat → Nat → Chars
  | 0, _ => []
  | fuel + 1, n =>
    if n < 10 then [digitChar n]
    else natDigitsAux fuel (n / 10) ++ [digitChar (n % 10)]

/-- Canonical decimal rendering of a natural number. -/
def natDigits (n : Nat) : Chars := natDigitsAux (n + 1) n

/-- One pre-release identifier: the semver library stores identifiers
matching `/^[0-9]+$/` as numbers and the rest as strings. -/
inductive PreId
  | num (n : Nat)
  | str (s : Chars)
deriving DecidableEq

/-- A parsed semantic version (build metadata is validated but then
dropped by the library, so it is not stored). -/
structure SemVer where
  major : Nat
  minor : Nat
  patch : Nat
  prerelease : List PreId
deriving DecidableEq

/-- Parse one `0|[1-9]\d*` numeric group followed by the rest. -/
def parseNumId (cs : Chars) : Option (Nat × Chars) :=
  let ds := cs.takeWhile isDigitC
  let rest := cs.dropWhile isDigitC
  match ds with
  | [] => none
  | [d] => some (natOfDigits [d], rest)
  | d :: _ :: _ => if d = '0' then none else some (natOfDigits ds, rest)

/-- JS `split(".")` on a character list. -/
def splitDot : Chars → List Chars
  | [] => [[]]
  | c :: t =>
    if c = '.' then [] :: splitDot t
    else
      match splitDot t with
      | [] => [[c]]
      | p :: ps => (c :: p) :: ps

/-- Inverse of `splitDot`: join pieces with a dot. -/
def joinDot : List Chars → Chars
  | [] => []
  | [p] => p
  | p :: ps => p ++ '.' :: joinDot ps

/-- Does one piece match the semver pre-release identifier grammar
`(0|[1-9]\d*|\d*[a-zA-Z-][a-zA-Z0-9-]*)`? -/
def validPre1 (p : Chars) : Bool :=
  if p.all isDigitC then
    match p with
    | [] => false
    | [_] => true
    | d :: _ :: _ => !(d = '0')
  else p.all isIdChar

/-- Store an identifier the way the library does: digits-only pieces
become numbers, everything else stays a string. -/
def classifyPre1 (p : Chars) : PreId :=
  if p.all isDigitC then .num (natOfDigits p) else .str p

/-- Does one piece match the build identifier grammar `[0-9A-Za-z-]+`? -/
def validBuild1 (p : Chars) : Bool := !p.isEmpty && p.all isIdChar

/-- Parse what follows the patch number: nothing, `-prerelease`,
`+build`, or `-prerelease+build`. -/
def parseTail (cs : Chars) : Option (List PreId) :=
  match cs with
  | [] => some []
  | c :: t =>
    if c = '-' then
      let pre := t.takeWhile (fun c => !(c = '+'))
      let rest := t.dropWhile (fun c => !(c = '+'))
      let pieces := splitDot pre
      if pieces.all validPre1 then
        if rest.isEmpty then some (pieces.map classifyPre1)
        else if (splitDot rest.tail).all validBuild1 then
          some (pieces.map classifyPre1)
        else none
      else none
    else if c = '+' then
      if (splitDot t).all validBuild1 then some [] else none
    else none

/-- Consume one expected dot. -/
def expectDot : Chars → Option Chars
  | [] => none
  | c :: t => if c = '.' then some t else none

/-- Parse `major.minor.patch` plus tail (the body of the FULL regular
expression, after the optional leading `v`). -/
def parseCore (cs : Chars) : Option SemVer :=
  (parseNumId cs).bind fun p1 =>
    (expectDot p1.2).bind fun r1 =>
      (parseNumId r1).bind fun p2 =>
        (expectDot p2.2).bind fun r2 =>
          (parseNumId r2).bind fun p3 =>
            (parseTail p3.2).map fun pre => ⟨p1.1, p2.1, p3.1, pre⟩

/-- The `SemVer` constructor of the library: trim, then match the FULL
regular expression (which allows one optional leading `v`). -/
def parseSemVer (input : Chars) : Option SemVer :=
  match trimChars input with
  | [] => none
  | c :: t => if c = 'v' then parseCore t else parseCore (c :: t)

/-- Render one stored pre-release identifier back to text. -/
def renderPre1 : PreId → Chars
  | .num n => natDigits n
  | .str s => s

/-- The `version` property of a parsed `SemVer`: canonical
`major.minor.patch` with `-prerelease` when present (build dropped). -/
def render (v : SemVer) : Chars :=
  natDigits v.major ++ '.' :: natDigits v.minor ++ '.' :: natDigits v.patch
    ++ (if v.prerelease.isEmpty then []
        else '-' :: joinDot (v.prerelease.map renderPre1))

/-- `semver.clean`: trim, strip leading `=`/`v` characters, parse, and
return the canonical version text. -/
def cleanChars (cs : Chars) : Option Chars :=
  (parseSemVer (stripEqV (trimChars cs))).map render

example : cleanChars (chars "v1.2.3") = some (chars "1.2.3") := by decide
example : cleanChars (chars "not-a-version") = none := by decide
example : cleanChars (chars "v2.0.0-rc1") = some (chars "2.0.0-rc1") := by decide
example : cleanChars (chars "stable") = none := by decide
example : cleanChars (chars " =v1.02.3+meta") = none := by decide
example : cleanChars (chars " =v1.2.3+meta.4") = some (chars "1.2.3") := by decide

/-! ### semver comparison (`semver.compare`) -/

/-- Three-way comparison of naturals, as the library's
`compareIdentifiers` does for two numeric values. -/
def cmpNat (a b : Nat) : Int :=
  if a < b then -1 else if b < a then 1 else 0

/-- JS string `<` on the identifier character set (lexicographic by
code unit; a proper prefix is smaller). -/
def lexLtChars : Chars → Chars → Bool
  | [], [] => false
  | [], _ :: _ => true
  | _ :: _, [] => false
  | a :: as, b :: bs =>
    if a.toNat < b.toNat then true
    else if b.toNat < a.toNat then false
    else lexLtChars as bs

/-- `compareIdentifiers`: numbers compare numerically and sort before
strings; strings compare with JS `<`. -/
def compareIdentifiers : PreId → PreId → Int
  | .num a, .num b => cmpNat a b
  | .num _, .str _ => -1
  | .str _, .num _ => 1
  | .str a, .str b => if a = b then 0 else if lexLtChars a b then -1 else 1

/-- The element-wise loop of `comparePre` over two non-empty
pre-release identifier lists (a missing identifier sorts first). -/
def cmpIdList : List PreId → List PreId → Int
  | [], [] => 0
  | [], _ :: _ => -1
  | _ :: _, [] => 1
  | a :: as, b :: bs => if a = b then cmpIdList as bs else compareIdentifiers a b

/-- `comparePre`: a version with a pre-release sorts before the same
version without one. -/
def comparePre (a b : List PreId) : Int :=
  match a, b with
  | _ :: _, [] => -1
  | [], _ :: _ => 1
  | [], [] => 0
  | _ :: _, _ :: _ => cmpIdList a b

/-- `compare` on two parsed versions: major, minor, patch, then
pre-release precedence. -/
def semverCompareV (a b : SemVer) : Int :=
  let m := cmpNat a.major b.major
  if m = 0 then
    let mi := cmpNat a.minor b.minor
    if mi = 0 then
      let p := cmpNat a.patch b.patch
      if p = 0 then comparePre a.prerelease b.prerelease else p
    else mi
  else m

/-- `semver.compare` on version strings: both sides go through the
`SemVer` constructor (which throws on strings that do not parse, hence
the `Option`). -/
def semverCompareStr (a b : Chars) : Option Int :=
  match parseSemVer a, parseSemVer b with
  | some va, some vb => some (semverCompareV va vb)
  | _, _ => none

example : semverCompareStr (chars "2.27.9") (chars "2.28.0") = some (-1) := by decide
example : semverCompareStr (chars "2.28.0") (chars "2.28.0") = some 0 := by decide
example : semverCompareStr (chars "2.0.0-rc1") (chars "2.0.0") = some (-1) := by decide
example : semverCompareStr (chars "1.9.9") (chars "2.0.0-rc1") = some (-1) := by decide

/-! ### Domain model (from `src`, latest revision unless noted) -/

/-- The operating system families the action supports; any other
platform aborts at startup (`UnsupportedPlatform`). -/
inductive OSFamily
  | linux
  | macOS
  | windows
deriving DecidableEq

/-- The token interpolated for the platform in asset names. -/
def osFamilyChars : OSFamily → Chars
  | .linux => chars "linux"
  | .macOS => chars "macOS"
  | .windows => chars "windows"

/-- Architecture token: the raw identifier, except `x64` maps to
`amd64`. -/
def osArchToken (raw : Chars) : Chars :=
  if raw = chars "x64" then chars "amd64" else raw

/-- `toolName`. -/
def toolNameChars : Chars := chars "gh-cli"

/-- `execName`: `gh.exe` on windows, `gh` otherwise. -/
def execName (plat : OSFamily) : Chars :=
  if plat = .windows then chars "gh.exe" else chars "gh"

/-- The errors the sources throw, keyed by the spec's taxonomy; each
constructor carries the data interpolated into the thrown message. -/
inductive GhError
  | invalidVersion (version : Chars)
  | notAnExactVersion (input : Chars)
  | noMatchingRelease
  | httpNotFound (tag : Chars)
  | assetNotFound (assetName : Chars)
  | unsupportedExtension (ext : Chars)
  | noExecutableFound
  | verificationFailed (expected stdout : Chars)
deriving DecidableEq

/-- `ICleanedVersion`. -/
structure ICleanedVersion where
  versionString : Chars
deriving DecidableEq

/-- `cleanedVersion`: normalize or throw `Invalid version`. -/
def cleanedVersion (version : Chars) : Except GhError ICleanedVersion :=
  match cleanChars version with
  | none => .error (.invalidVersion version)
  | some s => .ok ⟨s⟩

/-- `assetExtension` (latest revision): windows always zips; macOS
switched from tarballs to zips at 2.28.0; everything else tarballs. -/
def assetExtension (plat : OSFamily) (version : ICleanedVersion) :
    Except GhError Chars :=
  if plat = .windows then .ok (chars "zip")
  else if ¬plat = .macOS then .ok (chars "tar.gz")
  else
    match semverCompareStr version.versionString (chars "2.28.0") with
    | none => .error (.invalidVersion version.versionString)
    | some c => .ok (if c = -1 then chars "tar.gz" else chars "zip")

/-- `RequestedVersion`: the raw input plus the cleaned version (which
is absent exactly for the `stable` and `latest` literals). -/
structure RequestedVersion where
  inputVersion : Chars
  semverVersion : Option ICleanedVersion
deriving DecidableEq

/-- The `RequestedVersion` constructor. -/
def mkRequestedVersion (inputVersion : Chars) :
    Except GhError RequestedVersion :=
  if inputVersion = chars "stable" || inputVersion = chars "latest" then
    .ok ⟨inputVersion, none⟩
  else
    match cleanedVersion inputVersion with
    | .error e => .error e
    | .ok v => .ok ⟨inputVersion, some v⟩

/-- `isStable` getter. -/
def RequestedVersion.isStable (rv : RequestedVersion) : Bool :=
  rv.inputVersion = chars "stable"

/-- `isLatest` getter. -/
def RequestedVersion.isLatest (rv : RequestedVersion) : Bool :=
  rv.inputVersion = chars "latest"

/-- The `cleanedVersion` getter: throws `is not a valid semver version`
when the mode is stable or latest (or no version is stored). -/
def RequestedVersion.cleanedVersion (rv : RequestedVersion) :
    Except GhError ICleanedVersion :=
  match rv.semverVersion with
  | none => .error (.notAnExactVersion rv.inputVersion)
  | some v =>
    if rv.isStable || rv.isLatest then .error (.notAnExactVersion rv.inputVersion)
    else .ok v

/-- The `tagName` getter: `v` + cleaned version. -/
def RequestedVersion.tagName (rv : RequestedVersion) : Except GhError Chars :=
  rv.cleanedVersion.map (fun v => 'v' :: v.versionString)

/-- `IInstalledVersion`. -/
structure IInstalledVersion where
  version : ICleanedVersion
  path : Chars
deriving DecidableEq

/-- `IReleaseAsset`. -/
structure IReleaseAsset where
  name : Chars
  url : Chars
  browser_download_url : Chars
deriving DecidableEq

/-- `IRelease` (latest revision: a cleaned version plus assets). -/
structure IRelease where
  version : ICleanedVersion
  assets : List IReleaseAsset
deriving DecidableEq

/-- A raw registry entry as the octokit calls return it: a tag string
plus assets. -/
structure RawRelease where
  tag_name : Chars
  assets : List IReleaseAsset
deriving DecidableEq

/-! ### Latest-mode release selection (`findMatchingRelease`, latest arm) -/

/-- The `forEach`/`try`/`catch` loop: entries whose tag does not clean
to a valid semantic version are dropped silently. -/
def releasesFromRaw (rs : List RawRelease) : List IRelease :=
  rs.filterMap fun r => (cleanChars r.tag_name).map fun c => ⟨⟨c⟩, r.assets⟩

/-- The sort comparator `(l, r) => semver_compare(r.version, l.version)`
placed `x` before `y` when it is `≤ 0` on `(x, y)`.  The comparator
would throw on an unparsable version string; on the lists this model
sorts, every version is canonical, so the `getD` default is never
reached (see `releasesFromRaw_parses`). -/
def releaseBefore (x y : IRelease) : Bool :=
  (semverCompareStr y.version.versionString x.version.versionString).getD 0 ≤ 0

/-- Insert into a list already sorted by the comparator. -/
def insertDesc (x : IRelease) : List IRelease → List IRelease
  | [] => [x]
  | y :: ys => if releaseBefore x y then x :: y :: ys else y :: insertDesc x ys

/-- `Array.prototype.sort` with the descending comparator, modelled as
an insertion sort (ties between equal versions may come out in a
different order, which the spec leaves unspecified). -/
def sortDesc : List IRelease → List IRelease
  | [] => []
  | x :: xs => insertDesc x (sortDesc xs)

/-- The latest-mode arm after the page of releases has been fetched:
filter, fail on empty, sort descending, take the first. -/
def findLatestRelease (rs : List RawRelease) : Except GhError IRelease :=
  let releases := releasesFromRaw rs
  if releases.isEmpty then .error .noMatchingRelease
  else
    match sortDesc releases with
    | [] => .error .noMatchingRelease
    | r :: _ => .ok r

/-! ### Collaborators, events and the orchestrator -/

/-- The external collaborators (registry, tool cache, download/extract,
filesystem, process execution), each a pure oracle. -/
structure Env where
  getLatestRelease : RawRelease
  listReleases : List RawRelease
  getReleaseByTag : Chars → Option RawRelease
  find : Chars → Chars → Option Chars
  downloadTool : Chars → Chars
  extractZip : Chars → Chars
  extractTar : Chars → Chars
  readdir : Chars → List Chars
  cacheDir : Chars → Chars → Chars → Chars → Chars
  ghVersionStdout : Chars

/-- One observable collaborator invocation. -/
inductive Event
  | findCache (version : Chars) (hit : Bool)
  | registryLatest
  | registryList
  | registryByTag (tag : Chars)
  | download (url : Chars)
  | extractZip (path : Chars)
  | extractTar (path : Chars)
  | cacheDir (path : Chars)
  | addPath (dir : Chars)
  | execVersion (exe : Chars)
  | setOutput (value : Chars)
deriving DecidableEq

/-- `path.join(a, b)` (path normalization is a no-op on the
separator-free components the sources join). -/
def pathJoin (a b : Chars) : Chars := a ++ '/' :: b

/-- `bin`. -/
def binChars : Chars := chars "bin"

/-- Node's `path.basename(p, ext)`: the part after the last slash,
minus `ext` when `ext` is a proper suffix of it. -/
def basenameMinusExt (p ext : Chars) : Chars :=
  let base := (p.reverse.takeWhile (fun c => !(c = '/'))).reverse
  if ¬base = ext ∧ ext.isSuffixOf base then base.take (base.length - ext.length)
  else base

/-- JS `String.prototype.indexOf(needle) >= 0`: does `needle` occur as
a contiguous substring of `hay`? -/
def isInfixOfC (needle : Chars) : Chars → Bool
  | [] => needle.isEmpty
  | c :: t => needle.isPrefixOf (c :: t) || isInfixOfC needle t

/-- `checkCache` (latest revision): probe the tool cache under the
already-cleaned version string.  `tools.find` returning the empty
string (falsy) is modelled as `none`. -/
def checkCache (env : Env) (version : ICleanedVersion) :
    Option IInstalledVersion × List Event :=
  let r := env.find toolNameChars version.versionString
  (r.map fun p => ⟨version, p⟩, [.findCache version.versionString r.isSome])

/-- `setAndCheckOutput`: put `bin` on the path, run `gh version`, fail
unless the version string occurs in the output, then publish it. -/
def setAndCheckOutput (env : Env) (plat : OSFamily) (iv : IInstalledVersion) :
    Except GhError Unit × List Event :=
  let log := [Event.addPath (pathJoin iv.path binChars),
              Event.execVersion (execName plat)]
  if isInfixOfC iv.version.versionString env.ghVersionStdout then
    (.ok (), log ++ [Event.setOutput iv.version.versionString])
  else
    (.error (.verificationFailed iv.version.versionString env.ghVersionStdout), log)

/-- `findMatchingRelease`: stable asks for the latest stable release,
latest filters and sorts one page, exact asks for the tag directly. -/
def findMatchingRelease (env : Env) (rv : RequestedVersion) :
    Except GhError IRelease × List Event :=
  if rv.isStable then
    (match cleanChars env.getLatestRelease.tag_name with
     | none => .error (.invalidVersion env.getLatestRelease.tag_name)
     | some c => .ok ⟨⟨c⟩, env.getLatestRelease.assets⟩,
     [.registryLatest])
  else if rv.isLatest then
    (findLatestRelease env.listReleases, [.registryList])
  else
    match rv.tagName with
    | .error e => (.error e, [])
    | .ok tag =>
      match env.getReleaseByTag tag with
      | none => (.error (.httpNotFound tag), [.registryByTag tag])
      | some raw =>
        (match cleanChars raw.tag_name with
         | none => .error (.invalidVersion raw.tag_name)
         | some c => .ok ⟨⟨c⟩, raw.assets⟩,
         [.registryByTag tag])

/-- The `switch (extension)` of `install`: dispatch to the matching
extractor or fail with `Unsupported extension`. -/
def extractStep (env : Env) (extension downloadedPath : Chars) :
    Except GhError (Chars × Event) :=
  if extension = chars "zip" then
    .ok (env.extractZip downloadedPath, .extractZip downloadedPath)
  else if extension = chars "tar.gz" then
    .ok (env.extractTar downloadedPath, .extractTar downloadedPath)
  else .error (.unsupportedExtension extension)

/-- `install` (latest revision): download, extract by extension,
descend into the asset-named folder when `bin` is not at the root, fail
without `bin`, then register with the tool cache. -/
def install (env : Env) (plat : OSFamily) (asset : IReleaseAsset)
    (version : ICleanedVersion) :
    Except GhError IInstalledVersion × List Event :=
  let downloadedPath := env.downloadTool asset.browser_download_url
  let log0 := [Event.download asset.browser_download_url]
  match assetExtension plat version with
  | .error e => (.error e, log0)
  | .ok extension =>
    match extractStep env extension downloadedPath with
    | .error e => (.error e, log0)
    | .ok (extractedPath, ev) =>
      let assetNameWithoutExtension := basenameMinusExt asset.name ('.' :: extension)
      let contents := env.readdir extractedPath
      let step :=
        if !contents.contains binChars && contents.contains assetNameWithoutExtension then
          let p := pathJoin extractedPath assetNameWithoutExtension
          (p, env.readdir p)
        else (extractedPath, contents)
      if !step.2.contains binChars then
        (.error .noExecutableFound, log0 ++ [ev])
      else
        let cachedPath := env.cacheDir step.1 (execName plat) toolNameChars
          version.versionString
        (.ok ⟨version, cachedPath⟩, log0 ++ [ev, .cacheDir step.1])

/-- The `Installing release` group of `main`: build the exact asset
name, find it (or fail with `Could not find a release asset`), then
install. -/
def installingRelease (env : Env) (plat : OSFamily) (arch : Chars)
    (release : IRelease) : Except GhError IInstalledVersion × List Event :=
  match assetExtension plat release.version with
  | .error e => (.error e, [])
  | .ok ext =>
    let assetName := chars "gh_" ++ release.version.versionString
      ++ '_' :: osFamilyChars plat ++ '_' :: arch ++ '.' :: ext
    match release.assets.find? (fun a => a.name == assetName) with
    | none => (.error (.assetNotFound assetName), [])
    | some asset => install env plat asset release.version

/-- The part of `main` past the pre-resolution cache check: fetch the
release, re-check the cache under the resolved version, install when
still missing, then verify and publish. -/
def resolveAndInstall (env : Env) (plat : OSFamily) (arch : Chars)
    (version : RequestedVersion) :
    Except GhError IInstalledVersion × List Event :=
  match findMatchingRelease env version with
  | (.error e, lg2) => (.error e, lg2)
  | (.ok release, lg2) =>
    let (cached, lg3) := checkCache env release.version
    match cached with
    | some iv =>
      (match setAndCheckOutput env plat iv with
       | (.error e, lg4) => (.error e, lg2 ++ lg3 ++ lg4)
       | (.ok _, lg4) => (.ok iv, lg2 ++ lg3 ++ lg4))
    | none =>
      match installingRelease env plat arch release with
      | (.error e, lg4) => (.error e, lg2 ++ lg3 ++ lg4)
      | (.ok iv, lg4) =>
        (match setAndCheckOutput env plat iv with
         | (.error e, lg5) => (.error e, lg2 ++ lg3 ++ lg4 ++ lg5)
         | (.ok _, lg5) => (.ok iv, lg2 ++ lg3 ++ lg4 ++ lg5))

/-- `main` (latest revision), parametrized by the host platform, the
architecture token and the `version` input; the optional token input
only configures registry authentication and is not modelled.  Returns
the installed version on success together with the collaborator
trace. -/
def mainRun (env : Env) (plat : OSFamily) (arch : Chars) (inputVersion : Chars) :
    Except GhError IInstalledVersion × List Event :=
  match mkRequestedVersion inputVersion with
  | .error e => (.error e, [])
  | .ok version =>
    let preCheck : Except GhError (Option IInstalledVersion) × List Event :=
      if !version.isStable && !version.isLatest then
        match version.cleanedVersion with
        | .error e => (.error e, [])
        | .ok v =>
          let (r, lg) := checkCache env v
          (.ok r, lg)
      else (.ok none, [])
    match preCheck with
    | (.error e, lg) => (.error e, lg)
    | (.ok (some iv), lg) =>
      (match setAndCheckOutput env plat iv with
       | (.error e, lg2) => (.error e, lg ++ lg2)
       | (.ok _, lg2) => (.ok iv, lg ++ lg2))
    | (.ok none, lg) =>
      match resolveAndInstall env plat arch version with
      | (res, lg2) => (res, lg ++ lg2)

/-! ### The earlier revision (`part_000`) where the claims cite it -/

/-- `IInstalledVersion` of the earlier revision: a plain version
string. -/
structure IInstalledVersion0 where
  version : Chars
  path : Chars
deriving DecidableEq

/-- `checkCache` of the earlier revision: the argument (there the tag
name `v` + version) is re-normalized before the lookup, throwing when
it does not normalize. -/
def checkCache_rev0 (env : Env) (version : Chars) :
    Except GhError (Option IInstalledVersion0) × List Event :=
  match cleanChars version with
  | none => (.error (.invalidVersion version), [])
  | some sv =>
    let r := env.find toolNameChars sv
    (.ok (r.map fun p => ⟨sv, p⟩), [.findCache sv r.isSome])

/-- The asset name the earlier revision's `main` builds: its template
interpolates `assetExtension` itself instead of `assetExtension(version)`,
and JS stringifies a function to its source text, which is passed here
as `fnText`. -/
def assetName_rev0 (version : ICleanedVersion) (plat : OSFamily)
    (arch : Chars) (fnText : Chars) : Chars :=
  chars "gh_" ++ version.versionString ++ '_' :: osFamilyChars plat
    ++ '_' :: arch ++ '.' :: fnText

/-- The asset lookup of the earlier revision's installing group. -/
def findAsset_rev0 (release : IRelease) (plat : OSFamily) (arch : Chars)
    (fnText : Chars) : Option IReleaseAsset :=
  release.assets.find? (fun a => a.name == assetName_rev0 release.version plat arch fnText)

instance {ε α : Type} [DecidableEq ε] [DecidableEq α] : DecidableEq (Except ε α) :=
  fun a b =>
    match a, b with
    | .ok x, .ok y =>
      if h : x = y then .isTrue (by rw [h]) else .isFalse (by simp [h])
    | .error x, .error y =>
      if h : x = y then .isTrue (by rw [h]) else .isFalse (by simp [h])
    | .ok _, .error _ => .isFalse (by simp)
    | .error _, .ok _ => .isFalse (by simp)

example : findLatestRelease
    [⟨chars "v2.0.0", []⟩, ⟨chars "not-a-version", []⟩,
     ⟨chars "v1.9.9", []⟩, ⟨chars "v2.0.0-rc1", []⟩]
    = .ok ⟨⟨chars "2.0.0"⟩, []⟩ := by decide

/-! ### Decimal rendering lemmas -/

theorem ndAux_succ (f n : Nat) :
    natDigitsAux (f + 1) n = if n < 10 then [digitChar n]
      else natDigitsAux f (n / 10) ++ [digitChar (n % 10)] := rfl

theorem ndAux_congr : ∀ f g n, n < f → n < g → natDigitsAux f n = natDigitsAux g n := by
  intro f
  induction f with
  | zero => omega
  | succ f ih =>
    intro g n hf hg
    match g, hg with
    | g + 1, _ =>
      rw [ndAux_succ, ndAux_succ]
      by_cases h10 : n < 10
      · simp [h10]
      · simp only [if_neg h10]
        rw [ih g (n / 10) (by omega) (by omega)]

theorem natDigits_eq (n : Nat) :
    natDigits n = if n < 10 then [digitChar n]
      else natDigits (n / 10) ++ [digitChar (n % 10)] := by
  by_cases h10 : n < 10
  · simp [natDigits, ndAux_succ, h10]
  · show natDigitsAux (n + 1) n = _
    rw [ndAux_succ]
    simp only [if_neg h10]
    rw [ndAux_congr n (n / 10 + 1) (n / 10) (by omega) (by omega)]
    rfl

theorem isDigitC_digitChar (d : Nat) (h : d < 10) : isDigitC (digitChar d) = true := by
  interval_cases d <;> decide

theorem digitVal_digitChar (d : Nat) (h : d < 10) : digitVal (digitChar d) = d := by
  interval_cases d <;> decide

theorem digitChar_ne_zeroChar (d : Nat) (h0 : 0 < d) (h : d < 10) :
    ¬digitChar d = '0' := by
  interval_cases d <;> decide

theorem natDigits_all_digits (n : Nat) : ∀ c ∈ natDigits n, isDigitC c = true := by
  induction n using Nat.strong_induction_on with
  | _ n ih =>
    rw [natDigits_eq]
    by_cases h10 : n < 10
    · simp only [if_pos h10, List.mem_singleton]
      rintro c rfl
      exact isDigitC_digitChar n h10
    · have hd : n / 10 < n := by omega
      simp only [if_neg h10, List.mem_append, List.mem_singleton]
      rintro c (hc | rfl)
      · exact ih (n / 10) hd c hc
      · exact isDigitC_digitChar (n % 10) (by omega)

theorem natDigits_ne_nil (n : Nat) : natDigits n ≠ [] := by
  rw [natDigits_eq]
  by_cases h10 : n < 10 <;> simp [h10]

theorem natDigits_head_ne_zero (n : Nat) (h : 1 ≤ n) :
    ∀ c t, natDigits n = c :: t → ¬c = '0' := by
  induction n using Nat.strong_induction_on with
  | _ n ih =>
    rw [natDigits_eq]
    by_cases h10 : n < 10
    · simp only [if_pos h10]
      intro c t hct
      obtain ⟨rfl, -⟩ := List.cons.inj hct
      exact digitChar_ne_zeroChar n h h10
    · have hd : n / 10 < n := by omega
      have h1 : 1 ≤ n / 10 := by omega
      simp only [if_neg h10]
      intro c t hct
      obtain ⟨c0, t0, he⟩ : ∃ c0 t0, natDigits (n / 10) = c0 :: t0 := by
        match hnd : natDigits (n / 10) with
        | [] => exact absurd hnd (natDigits_ne_nil _)
        | c0 :: t0 => exact ⟨c0, t0, rfl⟩
      rw [he] at hct
      simp only [List.cons_append] at hct
      obtain ⟨h01, -⟩ := List.cons.inj hct
      rw [← h01]
      exact ih (n / 10) hd h1 c0 t0 he

theorem natOfDigits_append_one (ds : Chars) (c : Char) :
    natOfDigits (ds ++ [c]) = natOfDigits ds * 10 + digitVal c := by
  simp [natOfDigits, List.foldl_append]

theorem natOfDigits_natDigits (n : Nat) : natOfDigits (natDigits n) = n := by
  induction n using Nat.strong_induction_on with
  | _ n ih =>
    rw [natDigits_eq]
    by_cases h10 : n < 10
    · simp only [if_pos h10]
      simp [natOfDigits, digitVal_digitChar n h10]
    · have hd : n / 10 < n := by omega
      simp only [if_neg h10]
      rw [natOfDigits_append_one, ih (n / 10) hd,
        digitVal_digitChar (n % 10) (by omega)]
      omega

/-! ### takeWhile / dropWhile helpers -/

theorem takeWhile_all_eq_self {p : Char → Bool} :
    ∀ {l : Chars}, (∀ c ∈ l, p c = true) → l.takeWhile p = l := by
  intro l
  induction l with
  | nil => intro; rfl
  | cons c t ih =>
    intro h
    have hc : p c = true := h c (by simp)
    simp [List.takeWhile_cons, hc, ih fun x hx => h x (by simp [hx])]

theorem dropWhile_all_eq_nil {p : Char → Bool} :
    ∀ {l : Chars}, (∀ c ∈ l, p c = true) → l.dropWhile p = [] := by
  intro l
  induction l with
  | nil => intro; rfl
  | cons c t ih =>
    intro h
    have hc : p c = true := h c (by simp)
    simp [List.dropWhile_cons, hc, ih fun x hx => h x (by simp [hx])]

theorem takeWhile_append_all {p : Char → Bool} :
    ∀ {a : Chars} (b : Chars), (∀ c ∈ a, p c = true) →
      (a ++ b).takeWhile p = a ++ b.takeWhile p := by
  intro a
  induction a with
  | nil => intro b _; rfl
  | cons c t ih =>
    intro b h
    have hc : p c = true := h c (by simp)
    simp [List.takeWhile_cons, hc, ih b fun x hx => h x (by simp [hx])]

theorem dropWhile_append_all {p : Char → Bool} :
    ∀ {a : Chars} (b : Chars), (∀ c ∈ a, p c = true) →
      (a ++ b).dropWhile p = b.dropWhile p := by
  intro a
  induction a with
  | nil => intro b _; rfl
  | cons c t ih =>
    intro b h
    have hc : p c = true := h c (by simp)
    simp [List.dropWhile_cons, hc, ih b fun x hx => h x (by simp [hx])]

theorem takeWhile_cons_neg {p : Char → Bool} {c : Char} (t : Chars)
    (h : p c = false) : (c :: t).takeWhile p = [] := by
  simp [List.takeWhile_cons, h]

theorem dropWhile_cons_neg {p : Char → Bool} {c : Char} (t : Chars)
    (h : p c = false) : (c :: t).dropWhile p = c :: t := by
  simp [List.dropWhile_cons, h]

/-- Heads of what follows a digit group in the semver grammar are never
digits, hence the maximal-munch parse of the group is exact. -/
theorem parseNumId_natDigits (n : Nat) (rest : Chars)
    (hrest : ∀ c t, rest = c :: t → isDigitC c = false) :
    parseNumId (natDigits n ++ rest) = some (n, rest) := by
  have hall := natDigits_all_digits n
  have hrest2 : rest.takeWhile isDigitC = [] := by
    match rest with
    | [] => rfl
    | c :: t => exact takeWhile_cons_neg t (hrest c t rfl)
  have hrest3 : rest.dropWhile isDigitC = rest := by
    match rest with
    | [] => rfl
    | c :: t => exact dropWhile_cons_neg t (hrest c t rfl)
  have htake : (natDigits n ++ rest).takeWhile isDigitC = natDigits n := by
    rw [takeWhile_append_all rest hall, hrest2, List.append_nil]
  have hdrop : (natDigits n ++ rest).dropWhile isDigitC = rest := by
    rw [dropWhile_append_all rest hall, hrest3]
  unfold parseNumId
  rw [htake, hdrop]
  match hnd : natDigits n with
  | [] => exact absurd hnd (natDigits_ne_nil n)
  | [d] =>
    have : natOfDigits [d] = n := by rw [← hnd, natOfDigits_natDigits]
    simp [this]
  | d :: d2 :: ds =>
    have hlen : ¬n < 10 := by
      intro h10
      rw [natDigits_eq, if_pos h10] at hnd
      simp at hnd
    have hne : ¬d = '0' := by
      refine natDigits_head_ne_zero n (by omega) d (d2 :: ds) hnd
    have : natOfDigits (d :: d2 :: ds) = n := by rw [← hnd, natOfDigits_natDigits]
    simp [hne, this]

/-! ### splitDot / joinDot -/

theorem splitDot_no_dot :
    ∀ {p : Chars}, (∀ c ∈ p, ¬c = '.') → splitDot p = [p] := by
  intro p
  induction p with
  | nil => intro; rfl
  | cons c t ih =>
    intro h
    have hc : ¬c = '.' := h c (by simp)
    rw [splitDot, if_neg hc, ih fun x hx => h x (by simp [hx])]

theorem splitDot_append_dot (p t : Chars) (h : ∀ c ∈ p, ¬c = '.') :
    splitDot (p ++ '.' :: t) = p :: splitDot t := by
  induction p with
  | nil => simp [splitDot]
  | cons c q ih =>
    have hc : ¬c = '.' := h c (by simp)
    have ihq := ih fun x hx => h x (by simp [hx])
    rw [List.cons_append, splitDot, if_neg hc, ihq]

theorem splitDot_joinDot :
    ∀ {ps : List Chars}, ps ≠ [] → (∀ p ∈ ps, ∀ c ∈ p, ¬c = '.') →
      splitDot (joinDot ps) = ps := by
  intro ps
  induction ps with
  | nil => intro h; exact absurd rfl h
  | cons p qs ih =>
    intro _ h
    match qs with
    | [] => exact splitDot_no_dot (h p (by simp))
    | q :: rs =>
      rw [joinDot, splitDot_append_dot p _ (h p (by simp))]
      · rw [ih (by simp) fun x hx => h x (by simp [hx])]
      · simp

theorem joinDot_mem (ps : List Chars) :
    ∀ c ∈ joinDot ps, c = '.' ∨ ∃ p ∈ ps, c ∈ p := by
  induction ps with
  | nil => simp [joinDot]
  | cons p qs ih =>
    match qs with
    | [] =>
      intro c hc
      exact Or.inr ⟨p, by simp, hc⟩
    | q :: rs =>
      rw [joinDot]
      · intro c hc
        rcases List.mem_append.mp hc with hp | hq
        · exact Or.inr ⟨p, by simp, hp⟩
        · rcases List.mem_cons.mp hq with rfl | hr
          · exact Or.inl rfl
          · rcases ih c hr with h | ⟨x, hx, hcx⟩
            · exact Or.inl h
            · exact Or.inr ⟨x, by simp [hx], hcx⟩
      · simp

/-! ### Character class facts -/

theorem isDigitC_toNat {c : Char} (h : isDigitC c = true) :
    48 ≤ c.toNat ∧ c.toNat ≤ 57 := by
  simp [isDigitC] at h
  exact h

theorem isIdChar_toNat {c : Char} (h : isIdChar c = true) :
    (48 ≤ c.toNat ∧ c.toNat ≤ 57) ∨ (65 ≤ c.toNat ∧ c.toNat ≤ 90) ∨
    (97 ≤ c.toNat ∧ c.toNat ≤ 122) ∨ c.toNat = 45 := by
  simp [isIdChar, isDigitC, isAlphaC] at h
  omega

theorem isDigitC_isIdChar {c : Char} (h : isDigitC c = true) : isIdChar c = true := by
  simp [isIdChar, h]

theorem toNat_of_eq {c d : Char} (h : c = d) : c.toNat = d.toNat := by rw [h]

theorem isDigitC_ne_dot {c : Char} (h : isDigitC c = true) : ¬c = '.' := by
  intro he
  have := toNat_of_eq he
  have hd := isDigitC_toNat h
  simp at this
  omega

theorem isIdChar_ne_dot {c : Char} (h : isIdChar c = true) : ¬c = '.' := by
  intro he
  have := toNat_of_eq he
  have hd := isIdChar_toNat h
  simp at this
  omega

theorem isIdChar_ne_plus {c : Char} (h : isIdChar c = true) : ¬c = '+' := by
  intro he
  have := toNat_of_eq he
  have hd := isIdChar_toNat h
  simp at this
  omega

theorem isDigitC_not_ws {c : Char} (h : isDigitC c = true) : isJsWs c = false := by
  have hd := isDigitC_toNat h
  simp [isJsWs]
  omega

theorem isIdChar_not_ws {c : Char} (h : isIdChar c = true) : isJsWs c = false := by
  have hd := isIdChar_toNat h
  simp [isJsWs]
  omega

theorem isDigitC_ne_v {c : Char} (h : isDigitC c = true) : ¬c = 'v' := by
  intro he
  have := toNat_of_eq he
  have hd := isDigitC_toNat h
  simp at this
  omega

/-! ### Well-formed parsed versions and the render/parse roundtrip -/

/-- The invariant the parser guarantees for stored pre-release
identifiers. -/
def preIdWF : PreId → Prop
  | .num _ => True
  | .str s => s ≠ [] ∧ s.all isIdChar = true ∧ s.all isDigitC = false

/-- The invariant the parser guarantees for whole parsed versions. -/
def SemVerWF (v : SemVer) : Prop := ∀ p ∈ v.prerelease, preIdWF p

theorem renderPre1_idChars {p : PreId} (h : preIdWF p) :
    ∀ c ∈ renderPre1 p, isIdChar c = true := by
  match p with
  | .num n =>
    intro c hc
    exact isDigitC_isIdChar (natDigits_all_digits n c hc)
  | .str s =>
    intro c hc
    exact (List.all_eq_true.mp h.2.1) c hc

theorem validPre1_renderPre1 {p : PreId} (h : preIdWF p) :
    validPre1 (renderPre1 p) = true := by
  match p with
  | .num n =>
    have hall : (natDigits n).all isDigitC = true :=
      List.all_eq_true.mpr (natDigits_all_digits n)
    rw [renderPre1, validPre1.eq_def, if_pos hall]
    match hnd : natDigits n with
    | [] => exact absurd hnd (natDigits_ne_nil n)
    | [d] => rfl
    | d :: d2 :: ds =>
      have hlen : ¬n < 10 := by
        intro h10
        rw [natDigits_eq, if_pos h10] at hnd
        simp at hnd
      have hne : ¬d = '0' :=
        natDigits_head_ne_zero n (by omega) d (d2 :: ds) hnd
      simp [hne]
  | .str s =>
    rw [renderPre1, validPre1.eq_def, if_neg (by simp [h.2.2])]
    exact h.2.1

theorem classifyPre1_renderPre1 {p : PreId} (h : preIdWF p) :
    classifyPre1 (renderPre1 p) = p := by
  match p with
  | .num n =>
    have hall : (natDigits n).all isDigitC = true :=
      List.all_eq_true.mpr (natDigits_all_digits n)
    rw [renderPre1, classifyPre1, if_pos hall, natOfDigits_natDigits]
  | .str s =>
    rw [renderPre1, classifyPre1, if_neg (by simp [h.2.2])]

theorem parseTail_render (ps : List PreId) (h : ∀ p ∈ ps, preIdWF p) :
    parseTail (if ps.isEmpty then []
      else '-' :: joinDot (ps.map renderPre1)) = some ps := by
  match ps with
  | [] => rfl
  | p0 :: ps0 =>
    show parseTail ('-' :: joinDot ((p0 :: ps0).map renderPre1)) = some (p0 :: ps0)
    have hjoin : ∀ c ∈ joinDot ((p0 :: ps0).map renderPre1), ¬c = '+' := by
      intro c hc
      rcases joinDot_mem _ c hc with rfl | ⟨x, hx, hcx⟩
      · intro he
        have := toNat_of_eq he
        simp at this
      · obtain ⟨q, hq, rfl⟩ := List.mem_map.mp hx
        exact isIdChar_ne_plus (renderPre1_idChars (h q hq) c hcx)
    have hjoinb : ∀ c ∈ joinDot ((p0 :: ps0).map renderPre1),
        (fun c => !(c = '+')) c = true := by
      intro c hc
      simp [hjoin c hc]
    rw [parseTail]
    rw [if_pos (show ('-' : Char) = '-' from rfl)]
    simp only
    rw [takeWhile_all_eq_self hjoinb, dropWhile_all_eq_nil hjoinb]
    have hsplit : splitDot (joinDot ((p0 :: ps0).map renderPre1))
        = (p0 :: ps0).map renderPre1 := by
      refine splitDot_joinDot (by simp) ?_
      intro x hx c hc
      obtain ⟨q, hq, rfl⟩ := List.mem_map.mp hx
      exact isIdChar_ne_dot (renderPre1_idChars (h q hq) c hc)
    rw [hsplit]
    have hvalid : ((p0 :: ps0).map renderPre1).all validPre1 = true := by
      refine List.all_eq_true.mpr ?_
      intro x hx
      obtain ⟨q, hq, rfl⟩ := List.mem_map.mp hx
      exact validPre1_renderPre1 (h q hq)
    rw [if_pos hvalid]
    rw [if_pos (show (List.isEmpty ([] : Chars)) = true from rfl)]
    simp only [List.map_map]
    congr 1
    refine List.map_congr_left ?_ |>.trans (List.map_id _)
    intro q hq
    exact classifyPre1_renderPre1 (h q hq)

theorem dropWhile_all_neg {p : Char → Bool} :
    ∀ {l : Chars}, (∀ c ∈ l, p c = false) → l.dropWhile p = l := by
  intro l
  match l with
  | [] => intro; rfl
  | c :: t =>
    intro h
    exact dropWhile_cons_neg t (h c (by simp))

theorem trimChars_all_not_ws {l : Chars} (h : ∀ c ∈ l, isJsWs c = false) :
    trimChars l = l := by
  unfold trimChars
  rw [dropWhile_all_neg h,
    dropWhile_all_neg (fun c hc => h c (List.mem_reverse.mp hc)),
    List.reverse_reverse]

/-- Every character of a rendered version: a digit, a dot, a hyphen, or
a pre-release identifier character. -/
theorem render_chars {v : SemVer} (h : SemVerWF v) :
    ∀ c ∈ render v, isIdChar c = true ∨ c = '.' := by
  intro c hc
  unfold render at hc
  simp only [List.append_assoc, List.mem_append, List.cons_append,
    List.mem_cons] at hc
  rcases hc with hmaj | hc
  · exact Or.inl (isDigitC_isIdChar (natDigits_all_digits _ c hmaj))
  rcases hc with rfl | hc
  · exact Or.inr rfl
  rcases hc with hmnr | hc
  · exact Or.inl (isDigitC_isIdChar (natDigits_all_digits _ c hmnr))
  rcases hc with rfl | hc
  · exact Or.inr rfl
  rcases hc with hpat | htail
  · exact Or.inl (isDigitC_isIdChar (natDigits_all_digits _ c hpat))
  · by_cases hemp : v.prerelease.isEmpty
    · rw [if_pos hemp] at htail
      simp at htail
    · rw [if_neg hemp] at htail
      rcases List.mem_cons.mp htail with rfl | hjoin
      · exact Or.inl (by decide)
      · rcases joinDot_mem _ c hjoin with rfl | ⟨x, hx, hcx⟩
        · exact Or.inr rfl
        · obtain ⟨q, hq, rfl⟩ := List.mem_map.mp hx
          exact Or.inl (renderPre1_idChars (h q hq) c hcx)

theorem render_not_ws {v : SemVer} (h : SemVerWF v) :
    ∀ c ∈ render v, isJsWs c = false := by
  intro c hc
  rcases render_chars h c hc with hid | rfl
  · exact isIdChar_not_ws hid
  · decide

theorem render_shape (v : SemVer) :
    render v = natDigits v.major ++ '.' :: (natDigits v.minor ++ '.' ::
      (natDigits v.patch ++ (if v.prerelease.isEmpty then []
        else '-' :: joinDot (v.prerelease.map renderPre1)))) := by
  simp [render]

theorem render_ne_nil (v : SemVer) : render v ≠ [] := by
  intro hr
  rw [render_shape] at hr
  exact absurd (List.append_eq_nil.mp hr).1 (natDigits_ne_nil _)

theorem render_head_digit {v : SemVer} {c0 : Char} {t0 : Chars}
    (he : render v = c0 :: t0) : isDigitC c0 = true := by
  rw [render_shape] at he
  obtain ⟨d0, ds, hnd⟩ : ∃ d0 ds, natDigits v.major = d0 :: ds := by
    match hnd : natDigits v.major with
    | [] => exact absurd hnd (natDigits_ne_nil _)
    | d0 :: ds => exact ⟨d0, ds, rfl⟩
  rw [hnd] at he
  simp only [List.cons_append] at he
  obtain ⟨he0, -⟩ := List.cons.inj he
  rw [← he0]
  exact natDigits_all_digits _ d0 (by rw [hnd]; simp)

theorem expectDot_cons (t : Chars) : expectDot ('.' :: t) = some t := by
  simp [expectDot]

theorem parseSemVer_eq_core {input : Chars} {c : Char} {t : Chars}
    (htrim : trimChars input = c :: t) :
    parseSemVer input = if c = 'v' then parseCore t else parseCore (c :: t) := by
  rw [parseSemVer.eq_def, htrim]

theorem parseCore_render {v : SemVer} (h : SemVerWF v) :
    parseCore (render v) = some v := by
  rw [render_shape]
  set tl := (if v.prerelease.isEmpty then []
    else '-' :: joinDot (v.prerelease.map renderPre1)) with htl
  have htailhead : ∀ c t, tl = c :: t → isDigitC c = false := by
    intro c t hct
    rw [htl] at hct
    by_cases hemp : v.prerelease.isEmpty
    · rw [if_pos hemp] at hct
      simp at hct
    · rw [if_neg hemp] at hct
      obtain ⟨he, -⟩ := List.cons.inj hct
      rw [← he]
      decide
  have hdot : ∀ (x : Chars) c t, ('.' :: x) = c :: t → isDigitC c = false := by
    intro x c t hct
    obtain ⟨he, -⟩ := List.cons.inj hct
    rw [← he]
    decide
  simp only [parseCore]
  rw [parseNumId_natDigits v.major _ (hdot _)]
  simp only [Option.some_bind]
  rw [expectDot_cons]
  simp only [Option.some_bind]
  rw [parseNumId_natDigits v.minor _ (hdot _)]
  simp only [Option.some_bind]
  rw [expectDot_cons]
  simp only [Option.some_bind]
  rw [parseNumId_natDigits v.patch _ htailhead]
  simp only [Option.some_bind]
  rw [htl, parseTail_render v.prerelease h]
  rfl

/-- The central roundtrip: parsing a rendered well-formed version gives
it back. -/
theorem parse_render {v : SemVer} (h : SemVerWF v) :
    parseSemVer (render v) = some v := by
  obtain ⟨c0, t0, he⟩ : ∃ c0 t0, render v = c0 :: t0 := by
    match hr : render v with
    | [] => exact absurd hr (render_ne_nil v)
    | c0 :: t0 => exact ⟨c0, t0, rfl⟩
  have hc0 := render_head_digit he
  have htrim : trimChars (render v) = c0 :: t0 :=
    (trimChars_all_not_ws (render_not_ws h)).trans he
  rw [parseSemVer_eq_core htrim]
  rw [if_neg (isDigitC_ne_v hc0)]
  rw [← he]
  exact parseCore_render h

/-! ### The parser only produces well-formed versions -/

theorem parseTail_wf {cs : Chars} {pre : List PreId}
    (h : parseTail cs = some pre) : ∀ p ∈ pre, preIdWF p := by
  match cs with
  | [] =>
    rw [parseTail] at h
    obtain rfl := Option.some.inj h
    simp
  | c :: t =>
    rw [parseTail] at h
    by_cases hdash : c = '-'
    · rw [if_pos hdash] at h
      simp only at h
      set pieces := splitDot (t.takeWhile fun c => !(c = '+')) with hp
      by_cases hall : pieces.all validPre1
      · rw [if_pos hall] at h
        have hmap : pre = pieces.map classifyPre1 := by
          by_cases hemp : (t.dropWhile fun c => !(c = '+')).isEmpty
          · rw [if_pos hemp] at h
            exact (Option.some.inj h).symm
          · rw [if_neg hemp] at h
            by_cases hb : (splitDot (t.dropWhile fun c => !(c = '+')).tail).all validBuild1
            · rw [if_pos hb] at h
              exact (Option.some.inj h).symm
            · rw [if_neg hb] at h
              exact absurd h (by simp)
        subst hmap
        intro p hp2
        obtain ⟨q, hq, rfl⟩ := List.mem_map.mp hp2
        have hval : validPre1 q = true := List.all_eq_true.mp hall q hq
        rw [classifyPre1]
        by_cases hdig : q.all isDigitC
        · rw [if_pos hdig]
          trivial
        · rw [if_neg hdig]
          rw [validPre1.eq_def, if_neg hdig] at hval
          refine ⟨?_, hval, by simpa using hdig⟩
          intro hnil
          subst hnil
          simp at hdig
      · rw [if_neg hall] at h
        exact absurd h (by simp)
    · rw [if_neg hdash] at h
      by_cases hplus : c = '+'
      · rw [if_pos hplus] at h
        by_cases hb : (splitDot t).all validBuild1
        · rw [if_pos hb] at h
          obtain rfl := Option.some.inj h
          simp
        · rw [if_neg hb] at h
          exact absurd h (by simp)
      · rw [if_neg hplus] at h
        exact absurd h (by simp)

theorem parseCore_wf {cs : Chars} {v : SemVer}
    (h : parseCore cs = some v) : SemVerWF v := by
  simp only [parseCore, Option.bind_eq_some, Option.map_eq_some'] at h
  obtain ⟨p1, h1, r1, hr1, p2, h2, r2, hr2, p3, h3, pre, hpre, hv⟩ := h
  subst hv
  exact parseTail_wf hpre

theorem parseSemVer_wf {cs : Chars} {v : SemVer}
    (h : parseSemVer cs = some v) : SemVerWF v := by
  match htrim : trimChars cs with
  | [] =>
    rw [parseSemVer.eq_def, htrim] at h
    simp at h
  | c :: t =>
    rw [parseSemVer_eq_core htrim] at h
    by_cases hv : c = 'v'
    · rw [if_pos hv] at h
      exact parseCore_wf h
    · rw [if_neg hv] at h
      exact parseCore_wf h

/-! ### `clean` is stable under re-prefixing with `v` -/

theorem cleanChars_eq_some {cs out : Chars} (h : cleanChars cs = some out) :
    ∃ v : SemVer, parseSemVer (stripEqV (trimChars cs)) = some v ∧
      out = render v := by
  unfold cleanChars at h
  match hp : parseSemVer (stripEqV (trimChars cs)) with
  | none => rw [hp] at h; exact absurd h (by simp)
  | some v =>
    rw [hp] at h
    exact ⟨v, rfl, (Option.some.inj h).symm⟩

theorem cleanChars_v_render {v : SemVer} (h : SemVerWF v) :
    cleanChars ('v' :: render v) = some (render v) := by
  have hnws : ∀ c ∈ 'v' :: render v, isJsWs c = false := by
    intro c hc
    rcases List.mem_cons.mp hc with rfl | hc
    · decide
    · exact render_not_ws h c hc
  obtain ⟨c0, t0, he⟩ : ∃ c0 t0, render v = c0 :: t0 := by
    match hr : render v with
    | [] => exact absurd hr (render_ne_nil v)
    | c0 :: t0 => exact ⟨c0, t0, rfl⟩
  have hc0 := render_head_digit he
  have hstrip : stripEqV ('v' :: render v) = render v := by
    have hpred : ((c0 = '=' : Bool) || (c0 = 'v' : Bool)) = false := by
      have h1 : ¬c0 = '=' := by
        intro hcq
        have := toNat_of_eq hcq
        have hd := isDigitC_toNat hc0
        simp at this
        omega
      have h2 : ¬c0 = 'v' := isDigitC_ne_v hc0
      simp [h1, h2]
    unfold stripEqV
    rw [List.dropWhile_cons]
    rw [if_pos (show ((('v' : Char) = '=' : Bool) || (('v' : Char) = 'v' : Bool))
      = true from by decide)]
    rw [he, dropWhile_cons_neg t0 hpred, ← he]
  unfold cleanChars
  rw [trimChars_all_not_ws hnws, hstrip, parse_render h]
  rfl

theorem cleanChars_idem_v {cs out : Chars} (h : cleanChars cs = some out) :
    cleanChars ('v' :: out) = some out := by
  obtain ⟨v, hp, rfl⟩ := cleanChars_eq_some h
  exact cleanChars_v_render (parseSemVer_wf hp)

/-! ### Order-theoretic facts about the comparison -/

theorem char_eq_of_toNat_eq {a b : Char} (h : a.toNat = b.toNat) : a = b :=
  Char.eq_of_val_eq (UInt32.ext h)

theorem cmpNat_eq_zero_iff {a b : Nat} : cmpNat a b = 0 ↔ a = b := by
  unfold cmpNat
  split_ifs <;> simp <;> omega

theorem cmpNat_eq_neg_iff {a b : Nat} : cmpNat a b = -1 ↔ a < b := by
  unfold cmpNat
  split_ifs <;> simp <;> omega

theorem cmpNat_eq_one_iff {a b : Nat} : cmpNat a b = 1 ↔ b < a := by
  unfold cmpNat
  split_ifs <;> simp <;> omega

theorem cmpNat_flip (a b : Nat) : cmpNat b a = -cmpNat a b := by
  unfold cmpNat
  split_ifs <;> simp <;> omega

theorem cmpNat_cases (a b : Nat) :
    cmpNat a b = -1 ∨ cmpNat a b = 0 ∨ cmpNat a b = 1 := by
  unfold cmpNat
  split_ifs <;> simp

theorem lexLt_cons (a b : Char) (as bs : Chars) :
    lexLtChars (a :: as) (b :: bs) =
      if a.toNat < b.toNat then true
      else if b.toNat < a.toNat then false
      else lexLtChars as bs := rfl

theorem lexLt_irrefl : ∀ a : Chars, lexLtChars a a = false := by
  intro a
  induction a with
  | nil => rfl
  | cons c t ih => simp [lexLt_cons, ih]

theorem lexLt_trans : ∀ {a b c : Chars}, lexLtChars a b = true →
    lexLtChars b c = true → lexLtChars a c = true := by
  intro a
  induction a with
  | nil =>
    intro b c hab hbc
    match c with
    | d :: s => simp [lexLtChars]
    | [] =>
      match b with
      | [] => exact absurd hbc (by simp [lexLtChars])
      | x :: xs => exact absurd hbc (by simp [lexLtChars])
  | cons x xs ih =>
    intro b c hab hbc
    match b with
    | [] => exact absurd hab (by simp [lexLtChars])
    | y :: ys =>
      match c with
      | [] => exact absurd hbc (by simp [lexLtChars])
      | z :: zs =>
        rw [lexLt_cons] at hab hbc ⊢
        by_cases h1 : x.toNat < y.toNat
        · by_cases h2 : y.toNat < z.toNat
          · rw [if_pos (by omega)]
          · by_cases h3 : z.toNat < y.toNat
            · rw [if_neg h2, if_pos h3] at hbc
              exact absurd hbc (by simp)
            · rw [if_pos (by omega)]
        · by_cases h2 : y.toNat < x.toNat
          · rw [if_neg h1, if_pos h2] at hab
            exact absurd hab (by simp)
          · rw [if_neg h1, if_neg h2] at hab
            by_cases h3 : y.toNat < z.toNat
            · rw [if_pos (by omega)]
            · by_cases h4 : z.toNat < y.toNat
              · rw [if_neg h3, if_pos h4] at hbc
                exact absurd hbc (by simp)
              · rw [if_neg h3, if_neg h4] at hbc
                rw [if_neg (by omega), if_neg (by omega)]
                exact ih hab hbc

theorem lexLt_asym {a b : Chars} (h : lexLtChars a b = true) :
    lexLtChars b a = false := by
  by_cases h2 : lexLtChars b a = true
  · have := lexLt_trans h h2
    rw [lexLt_irrefl] at this
    exact absurd this (by simp)
  · simpa using h2

theorem lexLt_trichot : ∀ {a b : Chars}, lexLtChars a b = false →
    lexLtChars b a = false → a = b := by
  intro a
  induction a with
  | nil =>
    intro b hab hba
    match b with
    | [] => rfl
    | c :: t => exact absurd hab (by simp [lexLtChars])
  | cons c t ih =>
    intro b hab hba
    match b with
    | [] => exact absurd hba (by simp [lexLtChars])
    | d :: s =>
      rw [lexLt_cons] at hab hba
      by_cases h1 : c.toNat < d.toNat
      · rw [if_pos h1] at hab
        exact absurd hab (by simp)
      · by_cases h2 : d.toNat < c.toNat
        · rw [if_pos h2] at hba
          exact absurd hba (by simp)
        · rw [if_neg h1, if_neg h2] at hab
          rw [if_neg h2, if_neg h1] at hba
          have hcd : c = d := char_eq_of_toNat_eq (by omega)
          rw [hcd, ih hab hba]

theorem cid_refl (p : PreId) : compareIdentifiers p p = 0 := by
  match p with
  | .num n => simp [compareIdentifiers, cmpNat_eq_zero_iff]
  | .str s => simp [compareIdentifiers]

theorem cid_eq_zero_iff {p q : PreId} : compareIdentifiers p q = 0 ↔ p = q := by
  match p, q with
  | .num a, .num b => simp [compareIdentifiers, cmpNat_eq_zero_iff]
  | .num a, .str b => simp [compareIdentifiers]
  | .str a, .num b => simp [compareIdentifiers]
  | .str a, .str b =>
    rw [compareIdentifiers]
    by_cases h : a = b
    · simp [h]
    · rw [if_neg h]
      constructor
      · intro hc
        split_ifs at hc <;> simp at hc
      · intro he
        exact absurd (PreId.str.inj he) h

theorem cid_flip (p q : PreId) :
    compareIdentifiers q p = -compareIdentifiers p q := by
  match p, q with
  | .num a, .num b => rw [compareIdentifiers, compareIdentifiers, cmpNat_flip]
  | .num a, .str b => simp [compareIdentifiers]
  | .str a, .num b => simp [compareIdentifiers]
  | .str a, .str b =>
    rw [compareIdentifiers, compareIdentifiers]
    by_cases h : a = b
    · simp [h]
    · have hba : ¬b = a := fun he => h he.symm
      rw [if_neg h, if_neg hba]
      by_cases hl : lexLtChars a b = true
      · simp [hl, lexLt_asym hl]
      · have hl2 : lexLtChars b a = true := by
          by_cases hba2 : lexLtChars b a = true
          · exact hba2
          · exact absurd (lexLt_trichot (by simpa using hl) (by simpa using hba2)) h
        simp [hl2, (by simpa using hl : lexLtChars a b = false)]

theorem cid_trans_neg {p q r : PreId} (h1 : compareIdentifiers p q = -1)
    (h2 : compareIdentifiers q r = -1) : compareIdentifiers p r = -1 := by
  match p, q, r with
  | .num a, .num b, .num c =>
    simp only [compareIdentifiers, cmpNat_eq_neg_iff] at h1 h2 ⊢
    omega
  | .num a, .num b, .str c => simp [compareIdentifiers]
  | .num a, .str b, .num c => simp [compareIdentifiers] at h2
  | .num a, .str b, .str c => simp [compareIdentifiers]
  | .str a, .num b, _ => simp [compareIdentifiers] at h1
  | .str a, .str b, .num c => simp [compareIdentifiers] at h2
  | .str a, .str b, .str c =>
    rw [compareIdentifiers] at h1 h2 ⊢
    by_cases hab : a = b
    · rw [if_pos hab] at h1
      simp at h1
    · rw [if_neg hab] at h1
      by_cases hl1 : lexLtChars a b = true
      case neg =>
        rw [if_neg hl1] at h1
        simp at h1
      rw [if_pos hl1] at h1
      by_cases hbc : b = c
      · rw [if_pos hbc] at h2
        simp at h2
      · rw [if_neg hbc] at h2
        by_cases hl2 : lexLtChars b c = true
        case neg =>
          rw [if_neg hl2] at h2
          simp at h2
        have hl3 := lexLt_trans hl1 hl2
        have hac : ¬a = c := by
          intro he
          subst he
          exact absurd hl2 (by simp [lexLt_asym hl1])
        rw [if_neg hac, if_pos hl3]

theorem cid_cases (p q : PreId) : compareIdentifiers p q = -1 ∨
    compareIdentifiers p q = 0 ∨ compareIdentifiers p q = 1 := by
  match p, q with
  | .num a, .num b => exact cmpNat_cases a b
  | .num a, .str b => simp [compareIdentifiers]
  | .str a, .num b => simp [compareIdentifiers]
  | .str a, .str b =>
    rw [compareIdentifiers]
    split_ifs <;> simp

theorem cmpIdList_eq_zero_iff : ∀ {a b : List PreId}, cmpIdList a b = 0 ↔ a = b := by
  intro a
  induction a with
  | nil =>
    intro b
    match b with
    | [] => simp [cmpIdList]
    | x :: xs => simp [cmpIdList]
  | cons x xs ih =>
    intro b
    match b with
    | [] => simp [cmpIdList]
    | y :: ys =>
      rw [cmpIdList]
      by_cases h : x = y
      · rw [if_pos h, h]
        simp [ih]
      · rw [if_neg h]
        simp [h, cid_eq_zero_iff]

theorem cmpIdList_flip : ∀ (a b : List PreId), cmpIdList b a = -cmpIdList a b := by
  intro a
  induction a with
  | nil =>
    intro b
    match b with
    | [] => simp [cmpIdList]
    | x :: xs => simp [cmpIdList]
  | cons x xs ih =>
    intro b
    match b with
    | [] => simp [cmpIdList]
    | y :: ys =>
      rw [cmpIdList, cmpIdList]
      by_cases h : x = y
      · rw [if_pos h, if_pos h.symm]
        exact ih ys
      · rw [if_neg h, if_neg (fun he => h he.symm)]
        exact cid_flip x y

theorem cmpIdList_trans_neg : ∀ {a b c : List PreId}, cmpIdList a b = -1 →
    cmpIdList b c = -1 → cmpIdList a c = -1 := by
  intro a
  induction a with
  | nil =>
    intro b c h1 h2
    match b with
    | [] => simp [cmpIdList] at h1
    | y :: ys =>
      match c with
      | [] => simp [cmpIdList] at h2
      | z :: zs => simp [cmpIdList]
  | cons x xs ih =>
    intro b c h1 h2
    match b with
    | [] => simp [cmpIdList] at h1
    | y :: ys =>
      match c with
      | [] => simp [cmpIdList] at h2
      | z :: zs =>
        rw [cmpIdList] at h1 h2 ⊢
        by_cases hxy : x = y
        · subst hxy
          rw [if_pos rfl] at h1
          by_cases hyz : x = z
          · subst hyz
            rw [if_pos rfl] at h2
            rw [if_pos rfl]
            exact ih h1 h2
          · rw [if_neg hyz] at h2
            rw [if_neg hyz]
            exact h2
        · rw [if_neg hxy] at h1
          by_cases hyz : y = z
          · subst hyz
            rw [if_neg hxy]
            exact h1
          · rw [if_neg hyz] at h2
            have hxz : ¬x = z := by
              intro he
              subst he
              rw [cid_flip] at h2
              rw [h1] at h2
              simp at h2
            rw [if_neg hxz]
            exact cid_trans_neg h1 h2

theorem cmpIdList_cases : ∀ (a b : List PreId), cmpIdList a b = -1 ∨
    cmpIdList a b = 0 ∨ cmpIdList a b = 1 := by
  intro a
  induction a with
  | nil =>
    intro b
    match b with
    | [] => simp [cmpIdList]
    | x :: xs => simp [cmpIdList]
  | cons x xs ih =>
    intro b
    match b with
    | [] => simp [cmpIdList]
    | y :: ys =>
      rw [cmpIdList]
      by_cases h : x = y
      · rw [if_pos h]
        exact ih ys
      · rw [if_neg h]
        exact cid_cases x y

theorem comparePre_eq_zero_iff : ∀ {a b : List PreId}, comparePre a b = 0 ↔ a = b := by
  intro a b
  match a, b with
  | [], [] => simp [comparePre]
  | [], x :: xs => simp [comparePre]
  | x :: xs, [] => simp [comparePre]
  | x :: xs, y :: ys =>
    rw [comparePre]
    exact cmpIdList_eq_zero_iff

theorem comparePre_flip (a b : List PreId) : comparePre b a = -comparePre a b := by
  match a, b with
  | [], [] => simp [comparePre]
  | [], x :: xs => simp [comparePre]
  | x :: xs, [] => simp [comparePre]
  | x :: xs, y :: ys =>
    rw [comparePre, comparePre]
    exact cmpIdList_flip _ _

theorem comparePre_trans_neg : ∀ {a b c : List PreId}, comparePre a b = -1 →
    comparePre b c = -1 → comparePre a c = -1 := by
  intro a b c h1 h2
  match a, b, c with
  | [], [], _ => simp [comparePre] at h1
  | [], _ :: _, _ => simp [comparePre] at h1
  | x :: xs, [], [] => simp [comparePre] at h2
  | x :: xs, [], _ :: _ => simp [comparePre] at h2
  | x :: xs, y :: ys, [] => simp [comparePre]
  | x :: xs, y :: ys, z :: zs =>
    rw [comparePre] at h1 h2 ⊢
    exact cmpIdList_trans_neg h1 h2

theorem comparePre_cases (a b : List PreId) : comparePre a b = -1 ∨
    comparePre a b = 0 ∨ comparePre a b = 1 := by
  match a, b with
  | [], [] => simp [comparePre]
  | [], x :: xs => simp [comparePre]
  | x :: xs, [] => simp [comparePre]
  | x :: xs, y :: ys =>
    rw [comparePre]
    exact cmpIdList_cases _ _

theorem comparePre_nil_right_neg_iff {a : List PreId} :
    comparePre a [] = -1 ↔ a ≠ [] := by
  match a with
  | [] => simp [comparePre]
  | x :: xs => simp [comparePre]

/-- Spec-side characterization of strict semantic-version precedence:
lexicographic on major, minor, patch, then a pre-release sorts before
none and pre-release lists compare element-wise. -/
def svLT (a b : SemVer) : Prop :=
  a.major < b.major ∨ (a.major = b.major ∧ (a.minor < b.minor ∨
    (a.minor = b.minor ∧ (a.patch < b.patch ∨ (a.patch = b.patch ∧
      comparePre a.prerelease b.prerelease = -1)))))

theorem svc_eq_zero_iff {a b : SemVer} : semverCompareV a b = 0 ↔ a = b := by
  obtain ⟨ma, mia, pa, ra⟩ := a
  obtain ⟨mb, mib, pb, rb⟩ := b
  simp only [semverCompareV, SemVer.mk.injEq]
  by_cases h1 : cmpNat ma mb = 0
  · rw [if_pos h1]
    by_cases h2 : cmpNat mia mib = 0
    · rw [if_pos h2]
      by_cases h3 : cmpNat pa pb = 0
      · rw [if_pos h3]
        rw [comparePre_eq_zero_iff]
        simp [cmpNat_eq_zero_iff.mp h1, cmpNat_eq_zero_iff.mp h2,
          cmpNat_eq_zero_iff.mp h3]
      · rw [if_neg h3]
        constructor
        · intro hc
          exact absurd hc h3
        · rintro ⟨-, -, hpp, -⟩
          exact absurd (cmpNat_eq_zero_iff.mpr hpp) h3
    · rw [if_neg h2]
      constructor
      · intro hc
        exact absurd hc h2
      · rintro ⟨-, hmm2, -, -⟩
        exact absurd (cmpNat_eq_zero_iff.mpr hmm2) h2
  · rw [if_neg h1]
    constructor
    · intro hc
      exact absurd hc h1
    · rintro ⟨hmm1, -, -, -⟩
      exact absurd (cmpNat_eq_zero_iff.mpr hmm1) h1

theorem svc_refl (a : SemVer) : semverCompareV a a = 0 :=
  svc_eq_zero_iff.mpr rfl

theorem svc_eq_neg_iff {a b : SemVer} : semverCompareV a b = -1 ↔ svLT a b := by
  obtain ⟨ma, mia, pa, ra⟩ := a
  obtain ⟨mb, mib, pb, rb⟩ := b
  simp only [semverCompareV, svLT]
  by_cases h1 : cmpNat ma mb = 0
  · rw [if_pos h1]
    have e1 := cmpNat_eq_zero_iff.mp h1
    by_cases h2 : cmpNat mia mib = 0
    · rw [if_pos h2]
      have e2 := cmpNat_eq_zero_iff.mp h2
      by_cases h3 : cmpNat pa pb = 0
      · rw [if_pos h3]
        have e3 := cmpNat_eq_zero_iff.mp h3
        constructor
        · intro hc
          exact Or.inr ⟨e1, Or.inr ⟨e2, Or.inr ⟨e3, hc⟩⟩⟩
        · rintro (hlt | ⟨-, hlt | ⟨-, hlt | ⟨-, hc⟩⟩⟩)
          · omega
          · omega
          · omega
          · exact hc
      · rw [if_neg h3]
        rw [cmpNat_eq_neg_iff]
        constructor
        · intro hlt
          exact Or.inr ⟨e1, Or.inr ⟨e2, Or.inl hlt⟩⟩
        · rintro (hlt | ⟨-, hlt | ⟨-, hlt | ⟨he3, -⟩⟩⟩)
          · omega
          · omega
          · exact hlt
          · exact absurd (cmpNat_eq_zero_iff.mpr he3) h3
    · rw [if_neg h2]
      rw [cmpNat_eq_neg_iff]
      constructor
      · intro hlt
        exact Or.inr ⟨e1, Or.inl hlt⟩
      · rintro (hlt | ⟨-, hlt | ⟨he2, -⟩⟩)
        · omega
        · exact hlt
        · exact absurd (cmpNat_eq_zero_iff.mpr he2) h2
  · rw [if_neg h1]
    rw [cmpNat_eq_neg_iff]
    constructor
    · intro hlt
      exact Or.inl hlt
    · rintro (hlt | ⟨he1, -⟩)
      · exact hlt
      · exact absurd (cmpNat_eq_zero_iff.mpr he1) h1

theorem svc_flip (a b : SemVer) :
    semverCompareV b a = -semverCompareV a b := by
  obtain ⟨ma, mia, pa, ra⟩ := a
  obtain ⟨mb, mib, pb, rb⟩ := b
  simp only [semverCompareV]
  rw [cmpNat_flip mb ma, cmpNat_flip mib mia, cmpNat_flip pb pa,
    comparePre_flip rb ra]
  split_ifs <;> simp_all [neg_eq_zero]

theorem svc_cases (a b : SemVer) : semverCompareV a b = -1 ∨
    semverCompareV a b = 0 ∨ semverCompareV a b = 1 := by
  obtain ⟨ma, mia, pa, ra⟩ := a
  obtain ⟨mb, mib, pb, rb⟩ := b
  simp only [semverCompareV]
  by_cases h1 : cmpNat ma mb = 0
  · rw [if_pos h1]
    by_cases h2 : cmpNat mia mib = 0
    · rw [if_pos h2]
      by_cases h3 : cmpNat pa pb = 0
      · rw [if_pos h3]
        exact comparePre_cases ra rb
      · rw [if_neg h3]
        rcases cmpNat_cases pa pb with h | h | h <;> simp [h]
    · rw [if_neg h2]
      rcases cmpNat_cases mia mib with h | h | h <;> simp [h]
  · rw [if_neg h1]
    rcases cmpNat_cases ma mb with h | h | h <;> simp [h]

theorem svLT_trans {a b c : SemVer} (h1 : svLT a b) (h2 : svLT b c) :
    svLT a c := by
  obtain ⟨ma, mia, pa, ra⟩ := a
  obtain ⟨mb, mib, pb, rb⟩ := b
  obtain ⟨mc, mic, pc, rc⟩ := c
  simp only [svLT] at h1 h2 ⊢
  rcases h1 with hm1 | ⟨em1, h1⟩
  · rcases h2 with hm2 | ⟨em2, h2⟩
    · exact Or.inl (by omega)
    · exact Or.inl (by omega)
  · rcases h2 with hm2 | ⟨em2, h2⟩
    · exact Or.inl (by omega)
    · refine Or.inr ⟨by omega, ?_⟩
      rcases h1 with hmi1 | ⟨emi1, h1⟩
      · rcases h2 with hmi2 | ⟨emi2, h2⟩
        · exact Or.inl (by omega)
        · exact Or.inl (by omega)
      · rcases h2 with hmi2 | ⟨emi2, h2⟩
        · exact Or.inl (by omega)
        · refine Or.inr ⟨by omega, ?_⟩
          rcases h1 with hp1 | ⟨ep1, h1⟩
          · rcases h2 with hp2 | ⟨ep2, h2⟩
            · exact Or.inl (by omega)
            · exact Or.inl (by omega)
          · rcases h2 with hp2 | ⟨ep2, h2⟩
            · exact Or.inl (by omega)
            · exact Or.inr ⟨by omega, comparePre_trans_neg h1 h2⟩

theorem svc_trans_neg {a b c : SemVer} (h1 : semverCompareV a b = -1)
    (h2 : semverCompareV b c = -1) : semverCompareV a c = -1 :=
  svc_eq_neg_iff.mpr (svLT_trans (svc_eq_neg_iff.mp h1) (svc_eq_neg_iff.mp h2))

theorem svc_le_trans {a b c : SemVer} (h1 : semverCompareV a b ≤ 0)
    (h2 : semverCompareV b c ≤ 0) : semverCompareV a c ≤ 0 := by
  rcases svc_cases a b with hab | hab | hab
  · rcases svc_cases b c with hbc | hbc | hbc
    · rw [svc_trans_neg hab hbc]
      omega
    · obtain rfl := svc_eq_zero_iff.mp hbc
      rw [hab]
      omega
    · rw [hbc] at h2
      omega
  · obtain rfl := svc_eq_zero_iff.mp hab
    exact h2
  · rw [hab] at h1
    omega

/-! ### The descending sort of the latest-mode resolution -/

/-- The version string of a release parses (true of everything built by
`releasesFromRaw`, whose strings are canonical). -/
def relParses (r : IRelease) : Prop :=
  ∃ v, parseSemVer r.version.versionString = some v

theorem releaseBefore_iff {x y : IRelease} {vx vy : SemVer}
    (hx : parseSemVer x.version.versionString = some vx)
    (hy : parseSemVer y.version.versionString = some vy) :
    releaseBefore x y = true ↔ semverCompareV vy vx ≤ 0 := by
  unfold releaseBefore semverCompareStr
  rw [hx, hy]
  simp

theorem releaseBefore_refl {x : IRelease} (hx : relParses x) :
    releaseBefore x x = true := by
  obtain ⟨vx, hvx⟩ := hx
  rw [releaseBefore_iff hvx hvx, svc_refl]

theorem releaseBefore_total {x y : IRelease} (hx : relParses x)
    (hy : relParses y) (h : ¬releaseBefore x y = true) :
    releaseBefore y x = true := by
  obtain ⟨vx, hvx⟩ := hx
  obtain ⟨vy, hvy⟩ := hy
  rw [releaseBefore_iff hvx hvy] at h
  rw [releaseBefore_iff hvy hvx, svc_flip]
  omega

theorem releaseBefore_trans {x y z : IRelease} (hx : relParses x)
    (hy : relParses y) (hz : relParses z)
    (h1 : releaseBefore x y = true) (h2 : releaseBefore y z = true) :
    releaseBefore x z = true := by
  obtain ⟨vx, hvx⟩ := hx
  obtain ⟨vy, hvy⟩ := hy
  obtain ⟨vz, hvz⟩ := hz
  rw [releaseBefore_iff hvx hvy] at h1
  rw [releaseBefore_iff hvy hvz] at h2
  rw [releaseBefore_iff hvx hvz]
  exact svc_le_trans h2 h1

theorem insertDesc_mem {x : IRelease} :
    ∀ {l : List IRelease} {z : IRelease}, z ∈ insertDesc x l ↔ z = x ∨ z ∈ l := by
  intro l
  induction l with
  | nil => simp [insertDesc]
  | cons y ys ih =>
    intro z
    rw [insertDesc]
    by_cases h : releaseBefore x y = true
    · rw [if_pos h]
      simp
    · rw [if_neg h]
      simp only [List.mem_cons, ih]
      tauto

theorem sortDesc_mem : ∀ {l : List IRelease} {z : IRelease},
    z ∈ sortDesc l ↔ z ∈ l := by
  intro l
  induction l with
  | nil => simp [sortDesc]
  | cons x xs ih =>
    intro z
    rw [sortDesc, insertDesc_mem]
    simp [ih]

theorem insertDesc_pairwise {x : IRelease} {l : List IRelease}
    (hx : relParses x) (hl : ∀ r ∈ l, relParses r)
    (hp : l.Pairwise fun a b => releaseBefore a b = true) :
    (insertDesc x l).Pairwise fun a b => releaseBefore a b = true := by
  induction l with
  | nil => simp [insertDesc]
  | cons y ys ih =>
    rw [insertDesc]
    obtain ⟨hyy, hpys⟩ := List.pairwise_cons.mp hp
    by_cases h : releaseBefore x y = true
    · rw [if_pos h]
      refine List.pairwise_cons.mpr ⟨?_, hp⟩
      intro z hz
      rcases List.mem_cons.mp hz with rfl | hzys
      · exact h
      · exact releaseBefore_trans hx (hl y (by simp))
          (hl z (by simp [hzys])) h (hyy z hzys)
    · rw [if_neg h]
      refine List.pairwise_cons.mpr ⟨?_, ?_⟩
      · intro z hz
        rcases insertDesc_mem.mp hz with rfl | hzys
        · exact releaseBefore_total hx (hl y (by simp)) h
        · exact hyy z hzys
      · exact ih (fun r hr => hl r (by simp [hr])) hpys

theorem sortDesc_pairwise : ∀ {l : List IRelease}, (∀ r ∈ l, relParses r) →
    (sortDesc l).Pairwise fun a b => releaseBefore a b = true := by
  intro l
  induction l with
  | nil => simp [sortDesc]
  | cons x xs ih =>
    intro hl
    rw [sortDesc]
    refine insertDesc_pairwise (hl x (by simp)) ?_ (ih ?_)
    · intro r hr
      exact hl r (by simp [sortDesc_mem.mp hr])
    · intro r hr
      exact hl r (by simp [hr])

theorem sortDesc_head_max {l : List IRelease} {r : IRelease}
    {rest : List IRelease} (hl : ∀ q ∈ l, relParses q)
    (hs : sortDesc l = r :: rest) :
    ∀ q ∈ l, releaseBefore r q = true := by
  intro q hq
  have hr : r ∈ l := sortDesc_mem.mp (by rw [hs]; simp)
  have hqs : q ∈ sortDesc l := sortDesc_mem.mpr hq
  rw [hs] at hqs
  rcases List.mem_cons.mp hqs with rfl | hqrest
  · exact releaseBefore_refl (hl q hq)
  · have hp := sortDesc_pairwise hl
    rw [hs] at hp
    exact (List.pairwise_cons.mp hp).1 q hqrest

theorem releasesFromRaw_mem {rs : List RawRelease} {r : IRelease} :
    r ∈ releasesFromRaw rs ↔ ∃ raw ∈ rs,
      cleanChars raw.tag_name = some r.version.versionString ∧
      raw.assets = r.assets := by
  unfold releasesFromRaw
  rw [List.mem_filterMap]
  constructor
  · rintro ⟨raw, hraw, hmap⟩
    match hclean : cleanChars raw.tag_name with
    | none =>
      rw [hclean] at hmap
      simp at hmap
    | some c =>
      rw [hclean] at hmap
      simp only [Option.map_some'] at hmap
      obtain rfl := Option.some.inj hmap
      exact ⟨raw, hraw, hclean, rfl⟩
  · rintro ⟨raw, hraw, hclean, hassets⟩
    refine ⟨raw, hraw, ?_⟩
    rw [hclean]
    simp only [Option.map_some']
    rw [hassets]

theorem releasesFromRaw_parses {rs : List RawRelease} {r : IRelease}
    (h : r ∈ releasesFromRaw rs) : relParses r := by
  obtain ⟨raw, -, hclean, -⟩ := releasesFromRaw_mem.mp h
  obtain ⟨v, hp, hout⟩ := cleanChars_eq_some hclean
  refine ⟨v, ?_⟩
  rw [hout]
  exact parse_render (parseSemVer_wf hp)

/-! ### Event classification for the temporal claims -/

/-- Registry collaborator calls. -/
def Event.isRegistryCall : Event → Bool
  | .findCache _ _ => false
  | .registryLatest => true
  | .registryList => true
  | .registryByTag _ => true
  | .download _ => false
  | .extractZip _ => false
  | .extractTar _ => false
  | .cacheDir _ => false
  | .addPath _ => false
  | .execVersion _ => false
  | .setOutput _ => false

/-- Registry, download, extraction or cache-registration calls: the
collaborators a cache hit must make unreachable. -/
def Event.isResolutionOrInstallCall : Event → Bool
  | .findCache _ _ => false
  | .registryLatest => true
  | .registryList => true
  | .registryByTag _ => true
  | .download _ => true
  | .extractZip _ => true
  | .extractTar _ => true
  | .cacheDir _ => true
  | .addPath _ => false
  | .execVersion _ => false
  | .setOutput _ => false

/-- A cache probe that reported a hit. -/
def Event.isCacheHit : Event → Bool
  | .findCache _ hit => hit
  | .registryLatest => false
  | .registryList => false
  | .registryByTag _ => false
  | .download _ => false
  | .extractZip _ => false
  | .extractTar _ => false
  | .cacheDir _ => false
  | .addPath _ => false
  | .execVersion _ => false
  | .setOutput _ => false

/-- No resolution or installation collaborator is invoked after any
cache probe that reported a hit. -/
def noBadAfterHit : List Event → Bool
  | [] => true
  | e :: rest =>
    if e.isCacheHit then
      rest.all (fun x => !x.isResolutionOrInstallCall) && noBadAfterHit rest
    else noBadAfterHit rest

/-! ### Inversion helpers for the orchestrator -/

theorem checkCache_inv_some {env : Env} {v : ICleanedVersion}
    {iv : IInstalledVersion} {lg : List Event}
    (h : checkCache env v = (some iv, lg)) :
    ∃ p, env.find toolNameChars v.versionString = some p ∧ iv = ⟨v, p⟩ ∧
      lg = [.findCache v.versionString true] := by
  unfold checkCache at h
  obtain ⟨h1, h2⟩ := Prod.mk.inj h
  match hr : env.find toolNameChars v.versionString with
  | none =>
    rw [hr] at h1
    simp at h1
  | some p =>
    rw [hr] at h1 h2
    simp only [Option.map_some'] at h1
    exact ⟨p, rfl, (Option.some.inj h1).symm, by rw [← h2]; rfl⟩

theorem checkCache_inv_none {env : Env} {v : ICleanedVersion} {lg : List Event}
    (h : checkCache env v = (none, lg)) :
    env.find toolNameChars v.versionString = none ∧
      lg = [.findCache v.versionString false] := by
  unfold checkCache at h
  obtain ⟨h1, h2⟩ := Prod.mk.inj h
  match hr : env.find toolNameChars v.versionString with
  | some p =>
    rw [hr] at h1
    simp at h1
  | none =>
    rw [hr] at h2
    exact ⟨rfl, h2.symm⟩

theorem mk_ok_some_clean {s : Chars} {v : ICleanedVersion}
    (h : mkRequestedVersion s = .ok ⟨s, some v⟩) :
    cleanChars s = some v.versionString := by
  unfold mkRequestedVersion at h
  by_cases hsl : (s = chars "stable" || s = chars "latest") = true
  · rw [if_pos hsl] at h
    simp at h
  · rw [if_neg hsl] at h
    unfold cleanedVersion at h
    match hc : cleanChars s with
    | none =>
      rw [hc] at h
      simp at h
    | some c =>
      rw [hc] at h
      simp only at h
      obtain ⟨-, h2⟩ := RequestedVersion.mk.inj (Except.ok.inj h)
      obtain rfl := Option.some.inj h2
      rfl

/-! ### Claim theorems -/

/-- C9: verification runs the executable's version subcommand and fails
with VerificationFailed exactly when the installed version string is
not a substring of its standard output; the `installed-version` output
is published only after the check succeeds and equals the installed
canonical version string. -/
theorem C9_verify_then_publish (env : Env) (plat : OSFamily)
    (iv : IInstalledVersion) :
    setAndCheckOutput env plat iv =
      if isInfixOfC iv.version.versionString env.ghVersionStdout then
        (.ok (), [.addPath (pathJoin iv.path binChars),
                  .execVersion (execName plat),
                  .setOutput iv.version.versionString])
      else
        (.error (.verificationFailed iv.version.versionString env.ghVersionStdout),
         [.addPath (pathJoin iv.path binChars), .execVersion (execName plat)]) := by
  unfold setAndCheckOutput
  split_ifs <;> rfl

/-- C4: the constructor classifies the input into exactly one mode:
the literal `stable` gives Stable (no stored version), the literal
`latest` gives Latest (no stored version), and anything else goes
through normalization, failing with InvalidVersion when it fails and
otherwise storing the cleaned version (Exact mode). -/
theorem C4_constructor_classification :
    mkRequestedVersion (chars "stable") = .ok ⟨chars "stable", none⟩ ∧
    mkRequestedVersion (chars "latest") = .ok ⟨chars "latest", none⟩ ∧
    (∀ s : Chars, ¬s = chars "stable" → ¬s = chars "latest" →
      (cleanChars s = none → mkRequestedVersion s = .error (.invalidVersion s)) ∧
      (∀ c, cleanChars s = some c → mkRequestedVersion s = .ok ⟨s, some ⟨c⟩⟩)) := by
  refine ⟨by decide, by decide, ?_⟩
  intro s hs hl
  have hcond : ¬((s = chars "stable" || s = chars "latest") = true) := by
    simp [hs, hl]
  constructor
  · intro hnone
    unfold mkRequestedVersion
    rw [if_neg hcond]
    unfold cleanedVersion
    rw [hnone]
  · intro c hsome
    unfold mkRequestedVersion
    rw [if_neg hcond]
    unfold cleanedVersion
    rw [hsome]

/-- C4 witness at concrete inputs. -/
theorem C4_constructor_classification_witness :
    mkRequestedVersion (chars "not-a-version")
      = .error (.invalidVersion (chars "not-a-version")) ∧
    mkRequestedVersion (chars "v1.2.3")
      = .ok ⟨chars "v1.2.3", some ⟨chars "1.2.3"⟩⟩ :=
  ⟨(C4_constructor_classification.2.2 (chars "not-a-version") (by decide)
      (by decide)).1 (by decide),
   (C4_constructor_classification.2.2 (chars "v1.2.3") (by decide)
      (by decide)).2 (chars "1.2.3") (by decide)⟩

/-- C6: for an Exact-mode specifier the tag name is `v` followed by the
cleaned version string (1.2.3 gives v1.2.3), and both the cleaned
version getter and the tag name fail with NotAnExactVersion on a
Stable or Latest specifier. -/
theorem C6_tagName :
    (∀ (s c : Chars) (rv : RequestedVersion), cleanChars s = some c →
      ¬s = chars "stable" → ¬s = chars "latest" →
      mkRequestedVersion s = .ok rv →
      rv.cleanedVersion = .ok ⟨c⟩ ∧ rv.tagName = .ok ('v' :: c)) ∧
    (∀ rv : RequestedVersion, mkRequestedVersion (chars "stable") = .ok rv →
      rv.cleanedVersion = .error (.notAnExactVersion (chars "stable")) ∧
      rv.tagName = .error (.notAnExactVersion (chars "stable"))) ∧
    (∀ rv : RequestedVersion, mkRequestedVersion (chars "latest") = .ok rv →
      rv.cleanedVersion = .error (.notAnExactVersion (chars "latest")) ∧
      rv.tagName = .error (.notAnExactVersion (chars "latest"))) ∧
    (∀ rv : RequestedVersion, mkRequestedVersion (chars "1.2.3") = .ok rv →
      rv.tagName = .ok (chars "v1.2.3")) := by
  have hexact : ∀ (s c : Chars) (rv : RequestedVersion), cleanChars s = some c →
      ¬s = chars "stable" → ¬s = chars "latest" →
      mkRequestedVersion s = .ok rv →
      rv.cleanedVersion = .ok ⟨c⟩ ∧ rv.tagName = .ok ('v' :: c) := by
    intro s c rv hclean hs hl hmk
    have hcond : ¬((s = chars "stable" || s = chars "latest") = true) := by
      simp [hs, hl]
    unfold mkRequestedVersion at hmk
    rw [if_neg hcond] at hmk
    unfold cleanedVersion at hmk
    rw [hclean] at hmk
    simp only at hmk
    obtain rfl := Except.ok.inj hmk
    have hcv : RequestedVersion.cleanedVersion ⟨s, some ⟨c⟩⟩ = .ok ⟨c⟩ := by
      unfold RequestedVersion.cleanedVersion
      simp only
      rw [if_neg (by simp [RequestedVersion.isStable, RequestedVersion.isLatest, hs, hl])]
    refine ⟨hcv, ?_⟩
    unfold RequestedVersion.tagName
    rw [hcv]
    rfl
  refine ⟨hexact, ?_, ?_, ?_⟩
  · intro rv hmk
    have : rv = ⟨chars "stable", none⟩ := by
      rw [show mkRequestedVersion (chars "stable")
        = .ok ⟨chars "stable", none⟩ from by decide] at hmk
      exact (Except.ok.inj hmk).symm
    subst this
    constructor <;> decide
  · intro rv hmk
    have : rv = ⟨chars "latest", none⟩ := by
      rw [show mkRequestedVersion (chars "latest")
        = .ok ⟨chars "latest", none⟩ from by decide] at hmk
      exact (Except.ok.inj hmk).symm
    subst this
    constructor <;> decide
  · intro rv hmk
    have h := hexact (chars "1.2.3") (chars "1.2.3") rv (by decide)
      (by decide) (by decide) hmk
    exact h.2

/-- C6 witness at concrete inputs. -/
theorem C6_tagName_witness :
    (RequestedVersion.tagName ⟨chars "1.2.3", some ⟨chars "1.2.3"⟩⟩
      = .ok (chars "v1.2.3")) ∧
    (RequestedVersion.cleanedVersion ⟨chars "stable", none⟩
      = .error (.notAnExactVersion (chars "stable"))) :=
  ⟨C6_tagName.2.2.2 ⟨chars "1.2.3", some ⟨chars "1.2.3"⟩⟩ (by decide),
   (C6_tagName.2.1 ⟨chars "stable", none⟩ (by decide)).1⟩

/-- C10: the earlier revision's cache check, which re-normalizes the
tag name `v` + cleaned version before the lookup, queries the tool
cache under exactly the same version key as the latest revision's
check on the already-cleaned version, for every input the constructor
accepts (normalizing `v` + clean(s) yields clean(s) again), and never
fails doing so. -/
theorem C10_cache_key_equivalence (s : Chars) (v : ICleanedVersion) (env : Env)
    (h : mkRequestedVersion s = .ok ⟨s, some v⟩) :
    checkCache_rev0 env ('v' :: v.versionString) =
      (.ok ((env.find toolNameChars v.versionString).map
        fun p => ⟨v.versionString, p⟩),
       [.findCache v.versionString
         (env.find toolNameChars v.versionString).isSome]) ∧
    checkCache env v =
      ((env.find toolNameChars v.versionString).map fun p => ⟨v, p⟩,
       [.findCache v.versionString
         (env.find toolNameChars v.versionString).isSome]) := by
  have hclean := mk_ok_some_clean h
  have hidem := cleanChars_idem_v hclean
  constructor
  · unfold checkCache_rev0
    rw [hidem]
  · rfl

/-- C10 witness at a concrete accepted input. -/
theorem C10_cache_key_equivalence_witness :
    checkCache_rev0
      ⟨⟨[], []⟩, [], fun _ => none, fun _ _ => none, id, id, id,
        fun _ => [], fun a _ _ _ => a, []⟩
      ('v' :: ICleanedVersion.versionString ⟨chars "1.2.3"⟩)
      = (.ok none, [.findCache (chars "1.2.3") false]) :=
  ((C10_cache_key_equivalence (chars "v1.2.3") ⟨chars "1.2.3"⟩
    ⟨⟨[], []⟩, [], fun _ => none, fun _ _ => none, id, id, id,
      fun _ => [], fun a _ _ _ => a, []⟩ (by decide)).1).trans (by decide)

/-! ### C2: archive format selection -/

theorem assetExtension_macOS {v : ICleanedVersion} {sv : SemVer}
    (h : parseSemVer v.versionString = some sv) :
    assetExtension .macOS v =
      .ok (if semverCompareV sv ⟨2, 28, 0, []⟩ = -1 then chars "tar.gz"
           else chars "zip") := by
  have hcs : semverCompareStr v.versionString (chars "2.28.0")
      = some (semverCompareV sv ⟨2, 28, 0, []⟩) := by
    unfold semverCompareStr
    rw [h, show parseSemVer (chars "2.28.0") = some ⟨2, 28, 0, []⟩ from by decide]
  unfold assetExtension
  rw [if_neg (by decide), if_neg (by decide), hcs]

theorem svLT_2_28_0_iff {sv : SemVer} :
    svLT sv ⟨2, 28, 0, []⟩ ↔ (sv.major < 2 ∨ (sv.major = 2 ∧ sv.minor < 28) ∨
      (sv.major = 2 ∧ sv.minor = 28 ∧ sv.patch = 0 ∧ sv.prerelease ≠ [])) := by
  obtain ⟨ma, mia, pa, ra⟩ := sv
  simp only [svLT, comparePre_nil_right_neg_iff]
  constructor
  · rintro (h | ⟨e1, h | ⟨e2, h | ⟨e3, h⟩⟩⟩)
    · exact Or.inl h
    · exact Or.inr (Or.inl ⟨e1, h⟩)
    · omega
    · exact Or.inr (Or.inr ⟨e1, e2, by omega, h⟩)
  · rintro (h | ⟨e1, h⟩ | ⟨e1, e2, e3, h⟩)
    · exact Or.inl h
    · exact Or.inr ⟨e1, Or.inl h⟩
    · exact Or.inr ⟨e1, Or.inr ⟨e2, Or.inr ⟨by omega, h⟩⟩⟩

/-- C2: the archive extension is `zip` on windows for any version;
on macOS it is `zip` for versions at least 2.28.0 and `tar.gz` below
that boundary (2.27.9 gives tar.gz; 2.28.0 and 2.30.0 give zip); on
linux it is `tar.gz` for any version. -/
theorem C2_assetExtension :
    (∀ v : ICleanedVersion, assetExtension .windows v = .ok (chars "zip")) ∧
    (∀ v : ICleanedVersion, assetExtension .linux v = .ok (chars "tar.gz")) ∧
    (∀ (v : ICleanedVersion) (sv : SemVer),
      parseSemVer v.versionString = some sv →
      (assetExtension .macOS v = .ok (chars "tar.gz") ∨
       assetExtension .macOS v = .ok (chars "zip")) ∧
      (assetExtension .macOS v = .ok (chars "tar.gz") ↔
        (sv.major < 2 ∨ (sv.major = 2 ∧ sv.minor < 28) ∨
         (sv.major = 2 ∧ sv.minor = 28 ∧ sv.patch = 0 ∧ sv.prerelease ≠ [])))) ∧
    assetExtension .macOS ⟨chars "2.27.9"⟩ = .ok (chars "tar.gz") ∧
    assetExtension .macOS ⟨chars "2.28.0"⟩ = .ok (chars "zip") ∧
    assetExtension .macOS ⟨chars "2.30.0"⟩ = .ok (chars "zip") := by
  refine ⟨fun v => rfl, fun v => rfl, ?_, by decide, by decide, by decide⟩
  intro v sv h
  rw [assetExtension_macOS h]
  constructor
  · by_cases hc : semverCompareV sv ⟨2, 28, 0, []⟩ = -1
    · rw [if_pos hc]
      exact Or.inl rfl
    · rw [if_neg hc]
      exact Or.inr rfl
  · rw [← svLT_2_28_0_iff, ← svc_eq_neg_iff]
    by_cases hc : semverCompareV sv ⟨2, 28, 0, []⟩ = -1
    · rw [if_pos hc]
      simp [hc]
    · rw [if_neg hc]
      constructor
      · intro hz
        exact absurd (List.cons.inj (Except.ok.inj hz)).1 (by decide)
      · intro hcc
        exact absurd hcc hc

/-- C2 witness evaluating the macOS branch at version 2.27.9. -/
theorem C2_assetExtension_witness :
    assetExtension .macOS ⟨chars "2.27.9"⟩ = .ok (chars "tar.gz") ∨
    assetExtension .macOS ⟨chars "2.27.9"⟩ = .ok (chars "zip") :=
  (C2_assetExtension.2.2.1 ⟨chars "2.27.9"⟩ ⟨2, 27, 9, []⟩ (by decide)).1

/-! ### C8 and C5: the installer -/

theorem assetExtension_ok {plat : OSFamily} {v : ICleanedVersion} {sv : SemVer}
    (h : parseSemVer v.versionString = some sv) :
    ∃ ext, assetExtension plat v = .ok ext ∧
      (ext = chars "zip" ∨ ext = chars "tar.gz") := by
  match plat with
  | .windows => exact ⟨chars "zip", rfl, Or.inl rfl⟩
  | .linux => exact ⟨chars "tar.gz", rfl, Or.inr rfl⟩
  | .macOS =>
    rw [assetExtension_macOS h]
    by_cases hc : semverCompareV sv ⟨2, 28, 0, []⟩ = -1
    · rw [if_pos hc]
      exact ⟨chars "tar.gz", rfl, Or.inr rfl⟩
    · rw [if_neg hc]
      exact ⟨chars "zip", rfl, Or.inl rfl⟩

theorem assetExtension_error_inv {plat : OSFamily} {v : ICleanedVersion}
    {e : GhError} (h : assetExtension plat v = .error e) :
    e = .invalidVersion v.versionString := by
  unfold assetExtension at h
  by_cases hw : plat = .windows
  · rw [if_pos hw] at h
    simp at h
  · rw [if_neg hw] at h
    by_cases hm : ¬plat = .macOS
    · rw [if_pos hm] at h
      simp at h
    · rw [if_neg hm] at h
      match hc : semverCompareStr v.versionString (chars "2.28.0") with
      | none =>
        rw [hc] at h
        exact (Except.error.inj h).symm
      | some c =>
        rw [hc] at h
        simp at h

theorem extractStep_zip (env : Env) (dl : Chars) :
    extractStep env (chars "zip") dl
      = .ok (env.extractZip dl, .extractZip dl) := rfl

theorem extractStep_tar (env : Env) (dl : Chars) :
    extractStep env (chars "tar.gz") dl
      = .ok (env.extractTar dl, .extractTar dl) := by
  unfold extractStep
  rw [if_neg (by decide), if_pos rfl]

theorem extractStep_other (env : Env) {ext : Chars} (dl : Chars)
    (hz : ¬ext = chars "zip") (ht : ¬ext = chars "tar.gz") :
    extractStep env ext dl = .error (.unsupportedExtension ext) := by
  unfold extractStep
  rw [if_neg hz, if_neg ht]

theorem install_error_cases {env : Env} {plat : OSFamily}
    {asset : IReleaseAsset} {version : ICleanedVersion} {e : GhError}
    (h : (install env plat asset version).1 = .error e) :
    (∃ s, e = .invalidVersion s) ∨
    (∃ ext, assetExtension plat version = .ok ext ∧
      e = .unsupportedExtension ext ∧ ¬ext = chars "zip" ∧
      ¬ext = chars "tar.gz") ∨
    e = .noExecutableFound := by
  unfold install at h
  match hae : assetExtension plat version with
  | .error e2 =>
    rw [hae] at h
    simp only at h
    obtain rfl := Except.error.inj h
    exact Or.inl ⟨version.versionString, assetExtension_error_inv hae⟩
  | .ok ext =>
    rw [hae] at h
    simp only at h
    by_cases hz : ext = chars "zip"
    · subst hz
      rw [extractStep_zip] at h
      simp only at h
      split_ifs at h
      all_goals first
        | exact Or.inr (Or.inr (Except.error.inj h).symm)
        | simp at h
    · by_cases ht : ext = chars "tar.gz"
      · subst ht
        rw [extractStep_tar] at h
        simp only at h
        split_ifs at h
        all_goals first
          | exact Or.inr (Or.inr (Except.error.inj h).symm)
          | simp at h
      · rw [extractStep_other env _ hz ht] at h
        simp only at h
        obtain rfl := Except.error.inj h
        exact Or.inr (Or.inl ⟨ext, rfl, rfl, hz, ht⟩)

/-- C8: for every valid version and every supported platform the
extension is `zip` or `tar.gz`, the dispatch handles exactly those two,
and `install` therefore never fails with UnsupportedExtension. -/
theorem C8_unsupported_extension_unreachable :
    (∀ (plat : OSFamily) (v : ICleanedVersion) (sv : SemVer),
      parseSemVer v.versionString = some sv →
      ∃ ext, assetExtension plat v = .ok ext ∧
        (ext = chars "zip" ∨ ext = chars "tar.gz")) ∧
    (∀ (env : Env) (plat : OSFamily) (asset : IReleaseAsset)
      (v : ICleanedVersion) (sv : SemVer),
      parseSemVer v.versionString = some sv →
      ∀ e, ¬(install env plat asset v).1 = .error (.unsupportedExtension e)) := by
  refine ⟨fun plat v sv h => assetExtension_ok h, ?_⟩
  intro env plat asset v sv h e hcontra
  rcases install_error_cases hcontra with ⟨s, hs⟩ | ⟨ext, hae, he, hz, ht⟩ | hne
  · simp at hs
  · obtain ⟨ext2, hae2, hcase⟩ := @assetExtension_ok plat v sv h
    rw [hae] at hae2
    obtain rfl := Except.ok.inj hae2
    rcases hcase with rfl | rfl
    · exact hz rfl
    · exact ht rfl
  · simp at hne

/-- C8 witness: a concrete linux install run never reports an
unsupported extension. -/
theorem C8_unsupported_extension_unreachable_witness :
    ¬(install
        ⟨⟨[], []⟩, [], fun _ => none, fun _ _ => none, id, id, id,
          fun _ => [], fun a _ _ _ => a, []⟩
        .linux ⟨chars "n", chars "u", chars "d"⟩ ⟨chars "1.2.3"⟩).1
      = .error (.unsupportedExtension (chars "rar")) :=
  C8_unsupported_extension_unreachable.2
    ⟨⟨[], []⟩, [], fun _ => none, fun _ _ => none, id, id, id,
      fun _ => [], fun a _ _ _ => a, []⟩
    .linux ⟨chars "n", chars "u", chars "d"⟩ ⟨chars "1.2.3"⟩ ⟨1, 2, 3, []⟩
    (by decide) (chars "rar")

theorem install_eq {env : Env} {plat : OSFamily} {asset : IReleaseAsset}
    {version : ICleanedVersion} {ext root : Chars}
    (hae : assetExtension plat version = .ok ext)
    (hroot : (ext = chars "zip" ∧
        root = env.extractZip (env.downloadTool asset.browser_download_url)) ∨
      (ext = chars "tar.gz" ∧
        root = env.extractTar (env.downloadTool asset.browser_download_url))) :
    (install env plat asset version).1 =
      (if !(if !(env.readdir root).contains binChars &&
              (env.readdir root).contains
                (basenameMinusExt asset.name ('.' :: ext))
            then (pathJoin root (basenameMinusExt asset.name ('.' :: ext)),
              env.readdir (pathJoin root (basenameMinusExt asset.name ('.' :: ext))))
            else (root, env.readdir root)).2.contains binChars
       then .error .noExecutableFound
       else .ok ⟨version, env.cacheDir
         (if !(env.readdir root).contains binChars &&
             (env.readdir root).contains (basenameMinusExt asset.name ('.' :: ext))
          then pathJoin root (basenameMinusExt asset.name ('.' :: ext))
          else root)
         (execName plat) toolNameChars version.versionString⟩) := by
  unfold install
  rw [hae]
  rcases hroot with ⟨rfl, rfl⟩ | ⟨rfl, rfl⟩
  · simp only
    rw [extractStep_zip]
    simp only
    split_ifs <;> rfl
  · simp only
    rw [extractStep_tar]
    simp only
    split_ifs <;> rfl

/-- C5: if the extraction root lists `bin` it is used unchanged; else
if it lists an entry named like the asset minus its extension the
installer descends into it and re-checks for `bin`; if `bin` is still
missing the installation fails with NoExecutableFound. -/
theorem C5_executable_directory (env : Env) (plat : OSFamily)
    (asset : IReleaseAsset) (version : ICleanedVersion) (ext root : Chars)
    (hae : assetExtension plat version = .ok ext)
    (hroot : (ext = chars "zip" ∧
        root = env.extractZip (env.downloadTool asset.browser_download_url)) ∨
      (ext = chars "tar.gz" ∧
        root = env.extractTar (env.downloadTool asset.browser_download_url))) :
    ((env.readdir root).contains binChars = true →
      (install env plat asset version).1 = .ok ⟨version,
        env.cacheDir root (execName plat) toolNameChars version.versionString⟩) ∧
    ((env.readdir root).contains binChars = false →
      (env.readdir root).contains (basenameMinusExt asset.name ('.' :: ext)) = true →
      (env.readdir (pathJoin root (basenameMinusExt asset.name ('.' :: ext)))).contains
        binChars = true →
      (install env plat asset version).1 = .ok ⟨version,
        env.cacheDir (pathJoin root (basenameMinusExt asset.name ('.' :: ext)))
          (execName plat) toolNameChars version.versionString⟩) ∧
    ((env.readdir root).contains binChars = false →
      ((env.readdir root).contains (basenameMinusExt asset.name ('.' :: ext)) = false ∨
       (env.readdir (pathJoin root (basenameMinusExt asset.name ('.' :: ext)))).contains
         binChars = false) →
      (install env plat asset version).1 = .error .noExecutableFound) := by
  rw [install_eq hae hroot]
  refine ⟨?_, ?_, ?_⟩
  · intro hbin
    have hb : binChars ∈ env.readdir root := by simpa using hbin
    simp [hb]
  · intro hbin hnm hnested
    have hb : ¬binChars ∈ env.readdir root := by simpa using hbin
    have hn : basenameMinusExt asset.name ('.' :: ext) ∈ env.readdir root := by
      simpa using hnm
    have hs2 : binChars ∈
        env.readdir (pathJoin root (basenameMinusExt asset.name ('.' :: ext))) := by
      simpa using hnested
    simp [hb, hn, hs2]
  · intro hbin hcase
    have hb : ¬binChars ∈ env.readdir root := by simpa using hbin
    rcases hcase with hnm | hnested
    · have hn : ¬basenameMinusExt asset.name ('.' :: ext) ∈ env.readdir root := by
        simpa using hnm
      simp [hb, hn]
    · have hs2 : ¬binChars ∈
          env.readdir (pathJoin root (basenameMinusExt asset.name ('.' :: ext))) := by
        simpa using hnested
      by_cases hn : basenameMinusExt asset.name ('.' :: ext) ∈ env.readdir root
      · simp [hb, hn, hs2]
      · simp [hb, hn]

/-- C5 witness: a nested `gh_2.40.0_linux_amd64` folder containing
`bin` is resolved to, on a concrete environment. -/
theorem C5_executable_directory_witness :
    (install
      ⟨⟨[], []⟩, [], fun _ => none, fun _ _ => none,
        fun _ => chars "dl", fun _ => chars "x", fun _ => chars "x",
        fun d => if d = chars "x" then [chars "gh_2.40.0_linux_amd64"]
          else [binChars],
        fun a _ _ _ => a, []⟩
      .linux ⟨chars "gh_2.40.0_linux_amd64.tar.gz", chars "u", chars "d"⟩
      ⟨chars "2.40.0"⟩).1
    = .ok ⟨⟨chars "2.40.0"⟩, pathJoin (chars "x") (chars "gh_2.40.0_linux_amd64")⟩ :=
  ((C5_executable_directory
    ⟨⟨[], []⟩, [], fun _ => none, fun _ _ => none,
      fun _ => chars "dl", fun _ => chars "x", fun _ => chars "x",
      fun d => if d = chars "x" then [chars "gh_2.40.0_linux_amd64"]
        else [binChars],
      fun a _ _ _ => a, []⟩
    .linux ⟨chars "gh_2.40.0_linux_amd64.tar.gz", chars "u", chars "d"⟩
    ⟨chars "2.40.0"⟩ (chars "tar.gz") (chars "x") (by decide)
    (Or.inr ⟨rfl, by decide⟩)).2.1 (by decide) (by decide) (by decide)).trans
    (by decide)

/-! ### C1: latest-mode resolution -/

/-- The synthetic release list of the spec's latest-mode example, with
distinguishable assets. -/
def demoRawReleases : List RawRelease :=
  [⟨chars "v2.0.0", [⟨chars "a1", chars "u1", chars "d1"⟩]⟩,
   ⟨chars "not-a-version", [⟨chars "a2", chars "u2", chars "d2"⟩]⟩,
   ⟨chars "v1.9.9", [⟨chars "a3", chars "u3", chars "d3"⟩]⟩,
   ⟨chars "v2.0.0-rc1", [⟨chars "a4", chars "u4", chars "d4"⟩]⟩]

/-- C1: latest-mode resolution silently discards entries whose tag does
not normalize to a valid semantic version, fails with NoMatchingRelease
exactly when the filtered set is empty, and otherwise returns a release
from the filtered set whose version is maximal under semantic-version
precedence; over the synthetic list it returns exactly 2.0.0. -/
theorem C1_latest_mode_resolution :
    (∀ rs : List RawRelease,
      (∀ r : IRelease, r ∈ releasesFromRaw rs ↔ ∃ raw ∈ rs,
        cleanChars raw.tag_name = some r.version.versionString ∧
        raw.assets = r.assets) ∧
      (releasesFromRaw rs = [] ↔
        findLatestRelease rs = .error .noMatchingRelease) ∧
      (∀ r, findLatestRelease rs = .ok r → r ∈ releasesFromRaw rs ∧
        ∀ q ∈ releasesFromRaw rs, ∃ c,
          semverCompareStr r.version.versionString q.version.versionString
            = some c ∧ 0 ≤ c)) ∧
    findLatestRelease demoRawReleases
      = .ok ⟨⟨chars "2.0.0"⟩, [⟨chars "a1", chars "u1", chars "d1"⟩]⟩ := by
  refine ⟨?_, by decide⟩
  intro rs
  refine ⟨fun r => releasesFromRaw_mem, ?_, ?_⟩
  · constructor
    · intro hemp
      unfold findLatestRelease
      rw [hemp]
      rfl
    · intro herr
      by_contra hne
      obtain ⟨x, hx⟩ := List.exists_mem_of_ne_nil _ hne
      have hxs : x ∈ sortDesc (releasesFromRaw rs) := sortDesc_mem.mpr hx
      unfold findLatestRelease at herr
      rw [if_neg (by simp [List.isEmpty_iff, hne])] at herr
      match hs : sortDesc (releasesFromRaw rs) with
      | [] =>
        rw [hs] at hxs
        simp at hxs
      | y :: rest =>
        rw [hs] at herr
        simp at herr
  · intro r hok
    unfold findLatestRelease at hok
    by_cases hemp : (releasesFromRaw rs).isEmpty
    · rw [if_pos hemp] at hok
      simp at hok
    · rw [if_neg hemp] at hok
      match hs : sortDesc (releasesFromRaw rs) with
      | [] =>
        rw [hs] at hok
        simp at hok
      | rr :: rest =>
        rw [hs] at hok
        obtain rfl := Except.ok.inj hok
        have hparse : ∀ q ∈ releasesFromRaw rs, relParses q :=
          fun q hq => releasesFromRaw_parses hq
        have hmem : rr ∈ releasesFromRaw rs :=
          sortDesc_mem.mp (by rw [hs]; simp)
        refine ⟨hmem, ?_⟩
        intro q hq
        have hb := sortDesc_head_max hparse hs q hq
        obtain ⟨vr, hvr⟩ := releasesFromRaw_parses hmem
        obtain ⟨vq, hvq⟩ := releasesFromRaw_parses hq
        rw [releaseBefore_iff hvr hvq] at hb
        refine ⟨semverCompareV vr vq, ?_, ?_⟩
        · unfold semverCompareStr
          rw [hvr, hvq]
        · rw [svc_flip] at hb
          omega

/-- C1 witness: the resolved release of the synthetic list is a member
of the filtered set and maximal in it. -/
theorem C1_latest_mode_resolution_witness :
    (⟨⟨chars "2.0.0"⟩, [⟨chars "a1", chars "u1", chars "d1"⟩]⟩ : IRelease)
      ∈ releasesFromRaw demoRawReleases ∧
    ∀ q ∈ releasesFromRaw demoRawReleases, ∃ c,
      semverCompareStr (chars "2.0.0") q.version.versionString
        = some c ∧ 0 ≤ c :=
  (C1_latest_mode_resolution.1 demoRawReleases).2.2
    ⟨⟨chars "2.0.0"⟩, [⟨chars "a1", chars "u1", chars "d1"⟩]⟩ (by decide)

/-! ### C7: temporal properties of the orchestrator -/

theorem nbah_skip {e : Event} (h : e.isCacheHit = false) (rest : List Event) :
    noBadAfterHit (e :: rest) = noBadAfterHit rest := by
  conv_lhs => rw [noBadAfterHit]
  rw [if_neg (by simp [h])]

theorem nbah_hit {e : Event} (h : e.isCacheHit = true) (rest : List Event) :
    noBadAfterHit (e :: rest)
      = (rest.all (fun x => !x.isResolutionOrInstallCall) && noBadAfterHit rest) := by
  conv_lhs => rw [noBadAfterHit]
  rw [if_pos h]

theorem nbah_append_no_hit : ∀ {t1 : List Event},
    t1.all (fun e => !e.isCacheHit) = true → ∀ t2 : List Event,
    noBadAfterHit (t1 ++ t2) = noBadAfterHit t2 := by
  intro t1
  induction t1 with
  | nil => intro _ t2; rfl
  | cons e t ih =>
    intro h t2
    simp only [List.all_cons, Bool.and_eq_true] at h
    rw [List.cons_append, nbah_skip (by simpa using h.1), ih h.2]

theorem nbah_no_hit {t : List Event}
    (h : t.all (fun e => !e.isCacheHit) = true) : noBadAfterHit t = true := by
  have h2 := nbah_append_no_hit h []
  rw [List.append_nil] at h2
  rw [h2]
  rfl

theorem tame_no_hit {t : List Event}
    (h : t.all (fun e => !e.isResolutionOrInstallCall && !e.isCacheHit) = true) :
    t.all (fun e => !e.isCacheHit) = true := by
  rw [List.all_eq_true] at h ⊢
  intro e he
  have h2 := h e he
  simp only [Bool.and_eq_true] at h2
  exact h2.2

theorem tame_no_bad {t : List Event}
    (h : t.all (fun e => !e.isResolutionOrInstallCall && !e.isCacheHit) = true) :
    t.all (fun e => !e.isResolutionOrInstallCall) = true := by
  rw [List.all_eq_true] at h ⊢
  intro e he
  have h2 := h e he
  simp only [Bool.and_eq_true] at h2
  exact h2.1

theorem setOut_tame (env : Env) (plat : OSFamily) (iv : IInstalledVersion) :
    ((setAndCheckOutput env plat iv).2).all
      (fun e => !e.isResolutionOrInstallCall && !e.isCacheHit) = true := by
  unfold setAndCheckOutput
  split_ifs <;>
    simp [Event.isResolutionOrInstallCall, Event.isCacheHit]

theorem extractStep_ok_ev {env : Env} {ext dl p : Chars} {ev : Event}
    (h : extractStep env ext dl = .ok (p, ev)) : ev.isCacheHit = false := by
  unfold extractStep at h
  split_ifs at h
  all_goals first
    | (obtain ⟨-, hev⟩ := Prod.mk.inj (Except.ok.inj h)
       exact hev ▸ rfl)
    | simp at h

theorem install_no_hits (env : Env) (plat : OSFamily) (asset : IReleaseAsset)
    (version : ICleanedVersion) :
    ((install env plat asset version).2).all (fun e => !e.isCacheHit) = true := by
  unfold install
  match hae : assetExtension plat version with
  | .error e => simp [Event.isCacheHit]
  | .ok ext =>
    simp only
    match hex : extractStep env ext (env.downloadTool asset.browser_download_url) with
    | .error e2 => simp [Event.isCacheHit]
    | .ok (p, ev) =>
      have hev := extractStep_ok_ev hex
      simp only
      split_ifs <;>
        simp [hev, show ∀ u, Event.isCacheHit (.download u) = false from fun _ => rfl,
          show ∀ u, Event.isCacheHit (.cacheDir u) = false from fun _ => rfl]

theorem fmr_stable_trace {env : Env} {rv : RequestedVersion}
    (h : rv.isStable = true) :
    (findMatchingRelease env rv).2 = [.registryLatest] := by
  unfold findMatchingRelease
  rw [if_pos h]

theorem fmr_latest_trace {env : Env} {rv : RequestedVersion}
    (hs : ¬rv.isStable = true) (hl : rv.isLatest = true) :
    (findMatchingRelease env rv).2 = [.registryList] := by
  unfold findMatchingRelease
  rw [if_neg hs, if_pos hl]

theorem fmr_no_hits (env : Env) (rv : RequestedVersion) :
    ((findMatchingRelease env rv).2).all (fun e => !e.isCacheHit) = true := by
  unfold findMatchingRelease
  by_cases hs : rv.isStable = true
  · rw [if_pos hs]
    simp [Event.isCacheHit]
  · rw [if_neg hs]
    by_cases hl : rv.isLatest = true
    · rw [if_pos hl]
      simp [Event.isCacheHit]
    · rw [if_neg hl]
      match htag : rv.tagName with
      | .error e =>
        simp
      | .ok tag =>
        simp only
        match hrel : env.getReleaseByTag tag with
        | none => simp [Event.isCacheHit]
        | some raw => simp [Event.isCacheHit]

theorem installingRelease_trace (env : Env) (plat : OSFamily) (arch : Chars)
    (release : IRelease) :
    (installingRelease env plat arch release).2 = [] ∨
    ∃ asset, (installingRelease env plat arch release).2
      = (install env plat asset release.version).2 := by
  unfold installingRelease
  match hae : assetExtension plat release.version with
  | .error e => exact Or.inl rfl
  | .ok ext =>
    simp only
    generalize List.find? (fun a => a.name == chars "gh_"
        ++ release.version.versionString ++ '_' :: osFamilyChars plat
        ++ '_' :: arch ++ '.' :: ext) release.assets = res
    match res with
    | none => exact Or.inl rfl
    | some asset => exact Or.inr ⟨asset, rfl⟩

theorem installingRelease_no_hits (env : Env) (plat : OSFamily) (arch : Chars)
    (release : IRelease) :
    ((installingRelease env plat arch release).2).all
      (fun e => !e.isCacheHit) = true := by
  rcases installingRelease_trace env plat arch release with h | ⟨asset, h⟩
  · rw [h]
    rfl
  · rw [h]
    exact install_no_hits env plat asset release.version

theorem resolveAndInstall_head (env : Env) (plat : OSFamily) (arch : Chars)
    (rv : RequestedVersion) :
    ∃ t, (resolveAndInstall env plat arch rv).2
      = (findMatchingRelease env rv).2 ++ t := by
  unfold resolveAndInstall
  rcases hfmr : findMatchingRelease env rv with ⟨res, lg2⟩
  try rw [hfmr]
  match res with
  | .error e => exact ⟨[], by simp⟩
  | .ok release =>
    simp only
    rcases hcc : checkCache env release.version with ⟨cached, lg3⟩
    try rw [hcc]
    simp only
    match cached with
    | some iv =>
      rcases hso : setAndCheckOutput env plat iv with ⟨sres, lg4⟩
      try rw [hso]
      match sres with
      | .error e => exact ⟨lg3 ++ lg4, by simp [hso]⟩
      | .ok u => exact ⟨lg3 ++ lg4, by simp [hso]⟩
    | none =>
      rcases hin : installingRelease env plat arch release with ⟨ires, lg4⟩
      try rw [hin]
      match ires with
      | .error e => exact ⟨lg3 ++ lg4, by simp [hin]⟩
      | .ok iv =>
        rcases hso : setAndCheckOutput env plat iv with ⟨sres, lg5⟩
        try rw [hso]
        match sres with
        | .error e => exact ⟨lg3 ++ lg4 ++ lg5, by simp [hin, hso]⟩
        | .ok u => exact ⟨lg3 ++ lg4 ++ lg5, by simp [hin, hso]⟩

theorem resolveAndInstall_nbah (env : Env) (plat : OSFamily) (arch : Chars)
    (rv : RequestedVersion) :
    noBadAfterHit (resolveAndInstall env plat arch rv).2 = true := by
  unfold resolveAndInstall
  rcases hfmr : findMatchingRelease env rv with ⟨res, lg2⟩
  try rw [hfmr]
  have hlg2 : lg2.all (fun e => !e.isCacheHit) = true := by
    have h2 := fmr_no_hits env rv
    rw [hfmr] at h2
    exact h2
  match res with
  | .error e => exact nbah_no_hit hlg2
  | .ok release =>
    simp only
    rcases hcc : checkCache env release.version with ⟨cached, lg3⟩
    try rw [hcc]
    simp only
    match cached with
    | some iv =>
      obtain ⟨p, hfind, hiv, hlg3⟩ := checkCache_inv_some hcc
      subst hlg3
      rcases hso : setAndCheckOutput env plat iv with ⟨sres, lg4⟩
      try rw [hso]
      have hlg4 : lg4.all
          (fun e => !e.isResolutionOrInstallCall && !e.isCacheHit) = true := by
        have h4 := setOut_tame env plat iv
        rw [hso] at h4
        exact h4
      have key : noBadAfterHit
          (lg2 ++ [.findCache release.version.versionString true] ++ lg4) = true := by
        rw [List.append_assoc, nbah_append_no_hit hlg2, List.singleton_append,
          nbah_hit (show (Event.findCache
            release.version.versionString true).isCacheHit = true from rfl)]
        simp [tame_no_bad hlg4, nbah_no_hit (tame_no_hit hlg4)]
      match sres with
      | .error e => simpa [hso] using key
      | .ok u => simpa [hso] using key
    | none =>
      obtain ⟨hfind, hlg3⟩ := checkCache_inv_none hcc
      subst hlg3
      rcases hin : installingRelease env plat arch release with ⟨ires, lg4⟩
      try rw [hin]
      have hlg4 : lg4.all (fun e => !e.isCacheHit) = true := by
        have h4 := installingRelease_no_hits env plat arch release
        rw [hin] at h4
        exact h4
      match ires with
      | .error e =>
        apply nbah_no_hit
        rw [List.all_append, List.all_append, hlg2, hlg4]
        rfl
      | .ok iv =>
        rcases hso : setAndCheckOutput env plat iv with ⟨sres, lg5⟩
        try rw [hso]
        have hlg5 : lg5.all
            (fun e => !e.isResolutionOrInstallCall && !e.isCacheHit) = true := by
          have h5 := setOut_tame env plat iv
          rw [hso] at h5
          exact h5
        have key : noBadAfterHit
            (lg2 ++ [.findCache release.version.versionString false]
              ++ lg4 ++ lg5) = true := by
          apply nbah_no_hit
          rw [List.all_append, List.all_append, List.all_append, hlg2, hlg4,
            tame_no_hit hlg5]
          rfl
        match sres with
        | .error e => simpa [hin, hso] using key
        | .ok u => simpa [hin, hso] using key

theorem mk_exact_eq {s c : Chars} (hs : ¬s = chars "stable")
    (hl : ¬s = chars "latest") (hc : cleanChars s = some c) :
    mkRequestedVersion s = .ok ⟨s, some ⟨c⟩⟩ := by
  unfold mkRequestedVersion
  rw [if_neg (by simp [hs, hl])]
  unfold cleanedVersion
  rw [hc]

theorem rv_exact_not_stable {s : Chars} {v : Option ICleanedVersion}
    (hs : ¬s = chars "stable") :
    RequestedVersion.isStable ⟨s, v⟩ = false := by
  simp [RequestedVersion.isStable, hs]

theorem rv_exact_not_latest {s : Chars} {v : Option ICleanedVersion}
    (hl : ¬s = chars "latest") :
    RequestedVersion.isLatest ⟨s, v⟩ = false := by
  simp [RequestedVersion.isLatest, hl]

theorem rv_cleanedVersion_exact {s : Chars} (c : Chars)
    (hs : ¬s = chars "stable") (hl : ¬s = chars "latest") :
    RequestedVersion.cleanedVersion ⟨s, some ⟨c⟩⟩ = .ok ⟨c⟩ := by
  unfold RequestedVersion.cleanedVersion
  simp only
  rw [if_neg (by simp [rv_exact_not_stable hs, rv_exact_not_latest hl])]

theorem mainRun_nbah (env : Env) (plat : OSFamily) (arch : Chars)
    (input : Chars) :
    noBadAfterHit (mainRun env plat arch input).2 = true := by
  unfold mainRun
  match hmk : mkRequestedVersion input with
  | .error e => rfl
  | .ok version =>
    simp only
    by_cases hex : (!version.isStable && !version.isLatest) = true
    · rw [if_pos hex]
      match hcv : version.cleanedVersion with
      | .error e => rfl
      | .ok v =>
        simp only
        rcases hcc : checkCache env v with ⟨r, lg⟩
        try rw [hcc]
        simp only
        match r with
        | some iv =>
          obtain ⟨p, hfind, hiv, hlg⟩ := checkCache_inv_some hcc
          subst hlg
          rcases hso : setAndCheckOutput env plat iv with ⟨sres, lg2⟩
          try rw [hso]
          have hlg2 : lg2.all
              (fun e => !e.isResolutionOrInstallCall && !e.isCacheHit) = true := by
            have h2 := setOut_tame env plat iv
            rw [hso] at h2
            exact h2
          have key : noBadAfterHit
              ([Event.findCache v.versionString true] ++ lg2) = true := by
            rw [List.singleton_append, nbah_hit (show (Event.findCache
              v.versionString true).isCacheHit = true from rfl)]
            simp [tame_no_bad hlg2, nbah_no_hit (tame_no_hit hlg2)]
          match sres with
          | .error e => simpa [hso] using key
          | .ok u => simpa [hso] using key
        | none =>
          obtain ⟨hfind, hlg⟩ := checkCache_inv_none hcc
          subst hlg
          rcases hra : resolveAndInstall env plat arch version with ⟨res2, lgr⟩
          try rw [hra]
          simp only
          rw [List.singleton_append, nbah_skip (show (Event.findCache
            v.versionString false).isCacheHit = false from rfl)]
          have h2 := resolveAndInstall_nbah env plat arch version
          rw [hra] at h2
          exact h2
    · rw [if_neg hex]
      simp only
      rcases hra : resolveAndInstall env plat arch version with ⟨res2, lgr⟩
      try rw [hra]
      simp only
      rw [List.nil_append]
      have h2 := resolveAndInstall_nbah env plat arch version
      rw [hra] at h2
      exact h2

theorem mainRun_stable_head (env : Env) (plat : OSFamily) (arch : Chars) :
    (mainRun env plat arch (chars "stable")).2.head? = some .registryLatest := by
  unfold mainRun
  rw [show mkRequestedVersion (chars "stable")
    = .ok ⟨chars "stable", none⟩ from by decide]
  simp only
  rw [if_neg (by decide)]
  simp only
  rcases hra : resolveAndInstall env plat arch ⟨chars "stable", none⟩
    with ⟨res2, lgr⟩
  simp only
  obtain ⟨t, ht⟩ := resolveAndInstall_head env plat arch ⟨chars "stable", none⟩
  rw [hra] at ht
  simp only at ht
  rw [List.nil_append, ht, fmr_stable_trace (by decide)]
  rfl

theorem mainRun_latest_head (env : Env) (plat : OSFamily) (arch : Chars) :
    (mainRun env plat arch (chars "latest")).2.head? = some .registryList := by
  unfold mainRun
  rw [show mkRequestedVersion (chars "latest")
    = .ok ⟨chars "latest", none⟩ from by decide]
  simp only
  rw [if_neg (by decide)]
  simp only
  rcases hra : resolveAndInstall env plat arch ⟨chars "latest", none⟩
    with ⟨res2, lgr⟩
  simp only
  obtain ⟨t, ht⟩ := resolveAndInstall_head env plat arch ⟨chars "latest", none⟩
  rw [hra] at ht
  simp only at ht
  rw [List.nil_append, ht, fmr_latest_trace (by decide) (by decide)]
  rfl

theorem mainRun_exact_head (env : Env) (plat : OSFamily) (arch : Chars)
    (input c : Chars) (hs : ¬input = chars "stable")
    (hl : ¬input = chars "latest") (hc : cleanChars input = some c) :
    (mainRun env plat arch input).2.head?
      = some (.findCache c (env.find toolNameChars c).isSome) := by
  unfold mainRun
  rw [mk_exact_eq hs hl hc]
  simp only
  rw [if_pos (by simp [rv_exact_not_stable hs, rv_exact_not_latest hl])]
  rw [rv_cleanedVersion_exact c hs hl]
  simp only
  have hcc : checkCache env (⟨c⟩ : ICleanedVersion)
      = ((env.find toolNameChars c).map fun p => ⟨⟨c⟩, p⟩,
         [.findCache c (env.find toolNameChars c).isSome]) := rfl
  rw [hcc]
  simp only
  match hr : (env.find toolNameChars c).map
      (fun p => (⟨⟨c⟩, p⟩ : IInstalledVersion)) with
  | some iv =>
    rcases hso : setAndCheckOutput env plat iv with ⟨sres, lg2⟩
    try rw [hso]
    match sres with
    | .error e => simp [hso]
    | .ok u => simp [hso]
  | none =>
    rcases hra : resolveAndInstall env plat arch ⟨input, some ⟨c⟩⟩
      with ⟨res2, lgr⟩
    simp [hra]

theorem mainRun_exact_hit_tame (env : Env) (plat : OSFamily) (arch : Chars)
    (input c p : Chars) (hs : ¬input = chars "stable")
    (hl : ¬input = chars "latest") (hc : cleanChars input = some c)
    (hp : env.find toolNameChars c = some p) :
    ((mainRun env plat arch input).2).all
      (fun e => !e.isResolutionOrInstallCall) = true := by
  unfold mainRun
  rw [mk_exact_eq hs hl hc]
  simp only
  rw [if_pos (by simp [rv_exact_not_stable hs, rv_exact_not_latest hl])]
  rw [rv_cleanedVersion_exact c hs hl]
  simp only
  have hcc : checkCache env (⟨c⟩ : ICleanedVersion)
      = (some ⟨⟨c⟩, p⟩, [.findCache c true]) := by
    unfold checkCache
    rw [hp]
    rfl
  rw [hcc]
  simp only
  rcases hso : setAndCheckOutput env plat ⟨⟨c⟩, p⟩ with ⟨sres, lg2⟩
  try rw [hso]
  have hlg2 : lg2.all
      (fun e => !e.isResolutionOrInstallCall && !e.isCacheHit) = true := by
    have h2 := setOut_tame env plat ⟨⟨c⟩, p⟩
    rw [hso] at h2
    exact h2
  have key : ([Event.findCache c true] ++ lg2).all
      (fun e => !e.isResolutionOrInstallCall) = true := by
    rw [List.all_append, tame_no_bad hlg2]
    rfl
  match sres with
  | .error e => simpa [hso] using key
  | .ok u => simpa [hso] using key

/-- C7: the pre-resolution cache check happens only in Exact mode (for
`stable` and `latest` the first collaborator call is a registry call,
while an Exact run starts with a cache probe), an Exact-mode cache hit
makes the registry, download, extraction and cache-registration
collaborators unreachable for the whole run, and after any cache probe
that reports a hit no such collaborator is invoked. -/
theorem C7_cache_check_gating :
    (∀ (env : Env) (plat : OSFamily) (arch : Chars),
      (mainRun env plat arch (chars "stable")).2.head? = some .registryLatest) ∧
    (∀ (env : Env) (plat : OSFamily) (arch : Chars),
      (mainRun env plat arch (chars "latest")).2.head? = some .registryList) ∧
    (∀ (env : Env) (plat : OSFamily) (arch : Chars) (input c : Chars),
      ¬input = chars "stable" → ¬input = chars "latest" →
      cleanChars input = some c →
      (mainRun env plat arch input).2.head?
        = some (.findCache c (env.find toolNameChars c).isSome)) ∧
    (∀ (env : Env) (plat : OSFamily) (arch : Chars) (input c p : Chars),
      ¬input = chars "stable" → ¬input = chars "latest" →
      cleanChars input = some c → env.find toolNameChars c = some p →
      ((mainRun env plat arch input).2).all
        (fun e => !e.isResolutionOrInstallCall) = true) ∧
    (∀ (env : Env) (plat : OSFamily) (arch : Chars) (input : Chars),
      noBadAfterHit (mainRun env plat arch input).2 = true) :=
  ⟨mainRun_stable_head, mainRun_latest_head,
   fun env plat arch input c => mainRun_exact_head env plat arch input c,
   fun env plat arch input c p => mainRun_exact_hit_tame env plat arch input c p,
   mainRun_nbah⟩

/-- An environment whose cache always hits, for the C7 witness. -/
def hitEnv : Env :=
  ⟨⟨[], []⟩, [], fun _ => none, fun _ _ => some (chars "P"), id, id, id,
    fun _ => [], fun a _ _ _ => a, chars "gh version 1.2.3"⟩

/-- C7 witness: a concrete Exact-mode run against a hitting cache makes
no resolution or installation calls, and its first event is the cache
probe. -/
theorem C7_cache_check_gating_witness :
    ((mainRun hitEnv .linux (chars "amd64") (chars "v1.2.3")).2).all
      (fun e => !e.isResolutionOrInstallCall) = true ∧
    (mainRun hitEnv .linux (chars "amd64") (chars "v1.2.3")).2.head?
      = some (.findCache (chars "1.2.3")
          (hitEnv.find toolNameChars (chars "1.2.3")).isSome) :=
  ⟨C7_cache_check_gating.2.2.2.1 hitEnv .linux (chars "amd64")
    (chars "v1.2.3") (chars "1.2.3") (chars "P") (by decide) (by decide)
    (by decide) rfl,
   C7_cache_check_gating.2.2.1 hitEnv .linux (chars "amd64")
    (chars "v1.2.3") (chars "1.2.3") (by decide) (by decide) (by decide)⟩

/-! ### C3: the exact asset name and the AssetNotFound condition -/

theorem install_not_assetNotFound (env : Env) (plat : OSFamily)
    (asset : IReleaseAsset) (version : ICleanedVersion) (s : Chars) :
    ¬(install env plat asset version).1 = .error (.assetNotFound s) := by
  intro h
  rcases install_error_cases h with ⟨t, ht⟩ | ⟨ext, -, he, -, -⟩ | hne <;>
    simp_all

theorem head_append_ne {p x y : Chars} (h : ¬x.head? = y.head?) :
    ¬p ++ x = p ++ y := by
  intro he
  exact h (congrArg List.head? (List.append_cancel_left he))

/-- C3: in the latest revision the installing group builds the expected
asset name as exactly gh_version_osFamily_arch.extension with the
extension computed by applying assetExtension to the resolved version,
and fails with AssetNotFound exactly when no asset bears that name;
but in the earlier revision (part_000) the template interpolates the
assetExtension function itself, so the built name carries the
function's source text (which starts with the letter f) in place of
the extension, differs from the correct name, and the exact lookup
misses an asset that is named correctly. -/
theorem C3_asset_name_and_lookup :
    (∀ (env : Env) (plat : OSFamily) (arch : Chars) (release : IRelease)
       (ext n s : Chars),
      assetExtension plat release.version = .ok ext →
      n = chars "gh_" ++ release.version.versionString
        ++ '_' :: osFamilyChars plat ++ '_' :: arch ++ '.' :: ext →
      (((installingRelease env plat arch release).1
          = .error (.assetNotFound s)) ↔
        (s = n ∧ release.assets.find? (fun a => a.name == n) = none))) ∧
    (∀ fnText : Chars, fnText.head? = some 'f' →
      ¬assetName_rev0 ⟨chars "2.40.0"⟩ .linux (chars "amd64") fnText
        = chars "gh_2.40.0_linux_amd64.tar.gz" ∧
      findAsset_rev0
        ⟨⟨chars "2.40.0"⟩,
         [⟨chars "gh_2.40.0_linux_amd64.tar.gz", chars "u", chars "b"⟩]⟩
        .linux (chars "amd64") fnText = none) := by
  constructor
  · intro env plat arch release ext n s hext hn
    subst hn
    unfold installingRelease
    rw [hext]
    simp only
    rcases hf : release.assets.find? (fun a => a.name
        == chars "gh_" ++ release.version.versionString
          ++ '_' :: osFamilyChars plat ++ '_' :: arch ++ '.' :: ext)
      with _ | asset
    · rw [hf]
      simp only
      constructor
      · intro h
        have h2 := GhError.assetNotFound.inj (Except.error.inj h.symm)
        exact ⟨h2, trivial⟩
      · intro h2
        rw [h2.1]
    · rw [hf]
      simp only
      constructor
      · intro h
        exact absurd h (install_not_assetNotFound env plat asset
          release.version s)
      · intro h2
        exact absurd h2.2 (by simp)
  · intro fnText hf
    obtain ⟨c, t, rfl⟩ : ∃ c t, fnText = c :: t := by
      cases fnText with
      | nil => exact absurd hf (by simp)
      | cons c t => exact ⟨c, t, rfl⟩
    obtain rfl : c = 'f' := by simpa using hf
    have hne : ¬assetName_rev0 ⟨chars "2.40.0"⟩ .linux (chars "amd64")
        ('f' :: t) = chars "gh_2.40.0_linux_amd64.tar.gz" := by
      have e1 : assetName_rev0 ⟨chars "2.40.0"⟩ .linux (chars "amd64")
          ('f' :: t) = chars "gh_2.40.0_linux_amd64." ++ ('f' :: t) := rfl
      have e2 : chars "gh_2.40.0_linux_amd64.tar.gz"
          = chars "gh_2.40.0_linux_amd64." ++ chars "tar.gz" := rfl
      rw [e1, e2]
      have h2 : (chars "tar.gz").head? = some 't' := by decide
      refine head_append_ne ?_
      intro h
      exact absurd (Option.some.inj (h.trans h2)) (by decide)
    refine ⟨hne, ?_⟩
    have hb : ((chars "gh_2.40.0_linux_amd64.tar.gz")
        == assetName_rev0 ⟨chars "2.40.0"⟩ .linux (chars "amd64")
          ('f' :: t)) = false :=
      beq_eq_false_iff_ne.mpr (fun h => hne h.symm)
    unfold findAsset_rev0
    simp only [List.find?]
    rw [show ((⟨chars "gh_2.40.0_linux_amd64.tar.gz", chars "u",
        chars "b"⟩ : IReleaseAsset).name
        == assetName_rev0 (⟨⟨chars "2.40.0"⟩,
          [⟨chars "gh_2.40.0_linux_amd64.tar.gz", chars "u",
            chars "b"⟩]⟩ : IRelease).version .linux (chars "amd64")
          ('f' :: t)) = false from hb]

/-- C3 witness: the latest-revision equivalence at a concrete release
with no assets, and the earlier revision's divergence at the concrete
stringified-function text. -/
theorem C3_asset_name_and_lookup_witness :
    (((installingRelease hitEnv .linux (chars "amd64")
        ⟨⟨chars "2.40.0"⟩, []⟩).1
        = .error (.assetNotFound (chars "gh_" ++ chars "2.40.0"
          ++ '_' :: osFamilyChars .linux ++ '_' :: chars "amd64"
          ++ '.' :: chars "tar.gz"))) ↔
      (chars "gh_" ++ chars "2.40.0" ++ '_' :: osFamilyChars .linux
          ++ '_' :: chars "amd64" ++ '.' :: chars "tar.gz"
        = chars "gh_" ++ chars "2.40.0" ++ '_' :: osFamilyChars .linux
          ++ '_' :: chars "amd64" ++ '.' :: chars "tar.gz" ∧
       ([] : List IReleaseAsset).find? (fun a => a.name
         == chars "gh_" ++ chars "2.40.0" ++ '_' :: osFamilyChars .linux
           ++ '_' :: chars "amd64" ++ '.' :: chars "tar.gz") = none)) ∧
    (¬assetName_rev0 ⟨chars "2.40.0"⟩ .linux (chars "amd64")
        (chars "function assetExtension(version)")
        = chars "gh_2.40.0_linux_amd64.tar.gz" ∧
      findAsset_rev0 ⟨⟨chars "2.40.0"⟩,
        [⟨chars "gh_2.40.0_linux_amd64.tar.gz", chars "u", chars "b"⟩]⟩
        .linux (chars "amd64")
        (chars "function assetExtension(version)") = none) :=
  ⟨C3_asset_name_and_lookup.1 hitEnv .linux (chars "amd64")
      ⟨⟨chars "2.40.0"⟩, []⟩ (chars "tar.gz")
      (chars "gh_" ++ chars "2.40.0" ++ '_' :: osFamilyChars .linux
        ++ '_' :: chars "amd64" ++ '.' :: chars "tar.gz")
      (chars "gh_" ++ chars "2.40.0" ++ '_' :: osFamilyChars .linux
        ++ '_' :: chars "amd64" ++ '.' :: chars "tar.gz")
      (by decide) rfl,
   C3_asset_name_and_lookup.2 (chars "function assetExtension(version)")
      (by decide)⟩


end GhSetup
